import Mathlib

-- Verification of the parse-tree construction and initialization protocol of
-- the `ivy.nodes` module.  The Python object heap is modelled as a list of
-- node records indexed by allocation order; mutation is explicit state
-- passing; raised exceptions are `Except.error` values that still carry the
-- state at the time of the raise (Python does not roll back mutations when
-- an exception propagates).

set_option maxHeartbeats 1600000

namespace Ivy

/-- Values stored in a node's `data` dictionary (modelled as strings). -/
abbrev Val := String

/-- Lookup in a Python-style dictionary modelled as an association list. -/
def dictLookup (k : String) : List (String × α) → Option α
  | [] => none
  | p :: rest => if p.1 = k then some p.2 else dictLookup k rest

/-- `d[k] = v` on a Python-style dictionary: replace the binding in place
when the key is present, append it otherwise. -/
def dictInsert (k : String) (v : α) : List (String × α) → List (String × α)
  | [] => [(k, v)]
  | p :: rest => if p.1 = k then (k, v) :: rest else p :: dictInsert k v rest

/-- `d.update(other)`: insert the bindings of `other` left to right. -/
def dictUpdate (d other : List (String × α)) : List (String × α) :=
  other.foldl (fun acc p => dictInsert p.1 p.2 acc) d

/-- One `Node` object: `data` is the attribute dictionary, `parent` an
optional reference (heap index) to the containing node, `children` the
slug-keyed dictionary of child references. -/
structure NodeData where
  data : List (String × Val)
  parent : Option Nat
  children : List (String × Nat)
  stem : String
  slug : String
  ext : String
deriving Repr, DecidableEq

/-- `Node.__init__`: a fresh node with default attributes `text` and `html`
(set in that order), no parent, no children, empty stem/slug/ext. -/
def Node.new : NodeData :=
  { data := [("text", ""), ("html", "")], parent := none, children := [],
    stem := "", slug := "", ext := "" }

/-- Events fired on the hook dispatcher during initialization. -/
inductive Event where
  | init_node (n : Nat)
  | init_tree (n : Nat)
deriving Repr, DecidableEq

/-- Raised errors: a filesystem scan failure (`OSError` out of `iterdir`),
or exhaustion of the re-entrancy fuel of the modelled `root()` (the fuel
branch is unreachable in every theorem below). -/
inductive Err where
  | scanError
  | outOfFuel
deriving Repr, DecidableEq

instance {ε α : Type} [DecidableEq ε] [DecidableEq α] : DecidableEq (Except ε α) :=
  fun x y =>
    match x, y with
    | .error a, .error b =>
      if h : a = b then .isTrue (h ▸ rfl)
      else .isFalse (fun hh => h (Except.error.inj hh))
    | .ok a, .ok b =>
      if h : a = b then .isTrue (h ▸ rfl)
      else .isFalse (fun hh => h (Except.ok.inj hh))
    | .error _, .ok _ => .isFalse (fun hh => Except.noConfusion hh)
    | .ok _, .error _ => .isFalse (fun hh => Except.noConfusion hh)

/-- Process state: the object heap (indexed by allocation order), the
module-level `cache` variable, and the log of events fired so far. -/
structure St where
  heap : List NodeData
  cache : Option Nat
  log : List Event
deriving Repr, DecidableEq

def St.empty : St := { heap := [], cache := none, log := [] }

/-- Read a node from the heap (total; every use below is in bounds). -/
def getNode (s : St) (n : Nat) : NodeData := (s.heap[n]?).getD Node.new

/-- Overwrite a node on the heap. -/
def setNode (s : St) (n : Nat) (nd : NodeData) : St :=
  { s with heap := s.heap.set n nd }

/-- Allocate a fresh node, returning its heap index. -/
def alloc (s : St) (nd : NodeData) : Nat × St :=
  (s.heap.length, { s with heap := s.heap ++ [nd] })

/-- Fire an event on the hook dispatcher (appends to the event log). -/
def fire (s : St) (e : Event) : St := { s with log := s.log ++ [e] }

/-- External collaborators: `utils.slugify`, the registered extensions of
the rendering-engine registry (`renderers.callbacks`), `renderers.render`,
and the `node_text` / `node_html` filter chains of the hook dispatcher
(each receiving the value being filtered and the node). -/
structure Env where
  slugify : String → String
  callbacks : List String
  render : String → String → String
  fText : String → Nat → String
  fHtml : String → Nat → String

/-- `Node.inherit`, inner loop: `while self is not None: ...`.  The fuel
bounds the walk; parent chains of built heaps strictly decrease, so a fuel
of `s.heap.length` always suffices. -/
def inheritAux (s : St) (key : String) (default : Val) : Nat → Option Nat → Val
  | _, none => default
  | 0, some _ => default
  | fuel + 1, some n =>
    match dictLookup key (getNode s n).data with
    | some v => v
    | none => inheritAux s key default fuel (getNode s n).parent

/-- `Node.inherit(key, default)`: dictionary-style get with attribute
inheritance along the parent chain. -/
def inherit (s : St) (n : Nat) (key : String) (default : Val) : Val :=
  inheritAux s key default s.heap.length (some n)

/-- `Node.path`, inner loop: collect `self.slug` while walking up `parent`
links (fuelled; parent indices of built heaps strictly decrease). -/
def pathAux (s : St) : Nat → Nat → List String
  | 0, _ => []
  | fuel + 1, n =>
    match (getNode s n).parent with
    | none => []
    | some p => (getNode s n).slug :: pathAux s fuel p

/-- `Node.path`: the slugs locating the node in the parse tree (the source
loop collects bottom-up into `slugs` and then reverses). -/
def path (s : St) (n : Nat) : List String :=
  (pathAux s s.heap.length n).reverse

/-- `Node.url`: `'@root/' + '/'.join(self.path) + '//'` for a node with a
parent, the literal `'@root/'` for the root. -/
def url (s : St) (n : Nat) : String :=
  match (getNode s n).parent with
  | some _ => "@root/" ++ String.intercalate "/" (path s n) ++ "//"
  | none => "@root/"

/-- Python's ascending string order, stated on the underlying character
lists: code-point lexicographic order, the order `sorted` uses.  (It agrees
with the builtin `String` order — see `String.le_iff_toList_le` — but this
formulation evaluates.) -/
def strLe (a b : String) : Prop := a.data ≤ b.data

instance : DecidableRel strLe :=
  fun a b => inferInstanceAs (Decidable (a.data ≤ b.data))

instance : IsTotal String strLe := ⟨fun a b => le_total a.data b.data⟩

instance : IsTrans String strLe := ⟨fun _ _ _ h1 h2 => le_trans h1 h2⟩

/-- `Node.childlist`: `[self.children[k] for k in sorted(self.children)]` —
`sorted` on a dictionary sorts its keys in ascending order. -/
def childlist (s : St) (n : Nat) : List Nat :=
  (List.insertionSort strLe ((getNode s n).children.map Prod.fst)).filterMap
    (fun k => dictLookup k (getNode s n).children)

/-- `Node.has_children`. -/
def has_children (s : St) (n : Nat) : Bool :=
  (getNode s n).children.length > 0

/-- The loop of `node(*slugs)`: descend through `children` one slug at a
time, returning `none` as soon as a slug is absent. -/
def descend (s : St) : Nat → List String → Option Nat
  | n, [] => some n
  | n, sl :: rest =>
    match dictLookup sl (getNode s n).children with
    | none => none
    | some c => descend s c rest

/-- The per-node body of `Node.init` before the recursion: filter the
node's raw text on the `node_text` hook, render the filtered text, filter
the result on the `node_html` hook, storing both on the node. -/
def initNodeData (E : Env) (n : Nat) (s : St) : St :=
  let nd := getNode s n
  let tx := E.fText ((dictLookup "text" nd.data).getD "") n
  let s1 := setNode s n { nd with data := dictInsert "text" tx nd.data }
  let nd1 := getNode s1 n
  let h := E.fHtml (E.render ((dictLookup "text" nd1.data).getD "") nd1.ext) n
  setNode s1 n { nd1 with data := dictInsert "html" h nd1.data }

/-- `Node.init`, fuelled: filter and render this node (`initNodeData`),
recurse into the children, then fire `init_node` — so the event fires
bottom-up. -/
def initAux (E : Env) : Nat → Nat → St → St
  | 0, _, s => s
  | fuel + 1, n, s =>
    let s2 := initNodeData E n s
    let s3 := (getNode s2 n).children.foldl (fun t p => initAux E fuel p.2 t) s2
    fire s3 (.init_node n)

/-- `Node.init()` on a node of the current heap. -/
def init (E : Env) (n : Nat) (s : St) : St := initAux E s.heap.length n s

/-- A source filesystem tree: directories carry a readability flag
(`ok := false` models `iterdir` raising an `OSError`) and files carry the
text and metadata that `loader.load` returns for them.  A file's `suffix`
is stored as `pathlib` reports it, leading dot included. -/
inductive FST where
  | dir (stem : String) (ok : Bool) (entries : List FST)
  | file (stem : String) (suffix : String) (text : String) (meta : List (String × Val))

/-- Python `str.strip('.')`: drop leading and trailing dots. -/
def stripDots (s : String) : String :=
  String.mk (((s.toList.dropWhile (· == '.')).reverse.dropWhile (· == '.')).reverse)

/-- Python `stem.startswith('.')`, stated on the character list (the
builtin `String.startsWith` does not evaluate in the kernel). -/
def startsWithDot (s : String) : Bool :=
  match s.data with
  | [] => false
  | c :: _ => c == '.' 

/-- The type of the `node(*slugs)` accessor as the file parser uses it. -/
abbrev LookupFn := List String → St → Except Err (Option Nat) × St

/-- `parse_node_file`: merge a source file into the tree under `dirnode`.
A file whose slug is `index` populates `dirnode` itself; otherwise the
builder looks up a coterminous node via the `node()` accessor `lk`
(`node(*dirnode.path, slug)`), creating a fresh node when the lookup finds
nothing, re-links it, and then stores the loaded text, metadata and the
stripped suffix. -/
def parse_node_fileF (E : Env) (lk : LookupFn) (dirnode : Nat)
    (stem suffix text : String) (meta : List (String × Val)) (s : St) :
    Except Err Unit × St :=
  let slug := E.slugify stem
  if slug = "index" then
    let nd := getNode s dirnode
    let s1 := setNode s dirnode { nd with data := dictInsert "text" text nd.data }
    let nd1 := getNode s1 dirnode
    let s2 := setNode s1 dirnode { nd1 with data := dictUpdate nd1.data meta }
    let nd2 := getNode s2 dirnode
    (.ok (), setNode s2 dirnode { nd2 with ext := stripDots suffix })
  else
    match lk (path s dirnode ++ [slug]) s with
    | (.error e, s1) => (.error e, s1)
    | (.ok found, s1) =>
      let af := match found with
        | some m => (m, s1)
        | none => alloc s1 Node.new
      let filenode := af.1
      let s2 := af.2
      let nd := getNode s2 filenode
      let s3 := setNode s2 filenode
        { nd with slug := slug, stem := stem, parent := some dirnode }
      let nd1 := getNode s3 dirnode
      let s4 := setNode s3 dirnode
        { nd1 with children := dictInsert slug filenode nd1.children }
      let nd2 := getNode s4 filenode
      let s5 := setNode s4 filenode { nd2 with data := dictInsert "text" text nd2.data }
      let nd3 := getNode s5 filenode
      let s6 := setNode s5 filenode { nd3 with data := dictUpdate nd3.data meta }
      let nd4 := getNode s6 filenode
      (.ok (), setNode s6 filenode { nd4 with ext := stripDots suffix })

mutual
/-- `parse_node_directory`: scan all subdirectories first, then the files.
An unreadable directory raises before anything is processed (both loops
run `iterdir` over the same directory). -/
def parse_node_directoryF (E : Env) (lk : LookupFn) (dirnode : Nat) :
    FST → St → Except Err Unit × St
  | .file _ _ _ _, s => (.error .scanError, s)
  | .dir _ false _, s => (.error .scanError, s)
  | .dir _ true entries, s =>
    match parseDirs E lk dirnode entries s with
    | (.error e, s1) => (.error e, s1)
    | (.ok _, s1) => parseFiles E lk dirnode entries s1

/-- The body of one iteration of the subdirectory loop of
`parse_node_directory`, before the recursion: allocate a child node, set
its slug, stem and parent, and link it into `dirnode.children` under its
slug.  Returns the child and the new state. -/
def linkChild (E : Env) (dirnode : Nat) (stem : String) (s : St) : Nat × St :=
  let slug := E.slugify stem
  let a := alloc s Node.new
  let c := a.1
  let s1 := setNode a.2 c
    { getNode a.2 c with slug := slug, stem := stem, parent := some dirnode }
  let nd := getNode s1 dirnode
  (c, setNode s1 dirnode { nd with children := dictInsert slug c nd.children })

/-- The subdirectory loop of `parse_node_directory`: for each subdirectory,
allocate and link a child node (`linkChild`), then recurse into it. -/
def parseDirs (E : Env) (lk : LookupFn) (dirnode : Nat) :
    List FST → St → Except Err Unit × St
  | [], s => (.ok (), s)
  | .file _ _ _ _ :: rest, s => parseDirs E lk dirnode rest s
  | .dir stem ok entries :: rest, s =>
    let a := linkChild E dirnode stem s
    match parse_node_directoryF E lk a.1 (.dir stem ok entries) a.2 with
    | (.error e, s3) => (.error e, s3)
    | (.ok _, s3) => parseDirs E lk dirnode rest s3

/-- The file loop of `parse_node_directory`: skip dotfiles and files whose
stripped suffix has no registered rendering engine, parse the rest. -/
def parseFiles (E : Env) (lk : LookupFn) (dirnode : Nat) :
    List FST → St → Except Err Unit × St
  | [], s => (.ok (), s)
  | .dir _ _ _ :: rest, s => parseFiles E lk dirnode rest s
  | .file stem suffix text meta :: rest, s =>
    if startsWithDot stem then parseFiles E lk dirnode rest s
    else if stripDots suffix ∈ E.callbacks then
      match parse_node_fileF E lk dirnode stem suffix text meta s with
      | (.error e, s1) => (.error e, s1)
      | (.ok _, s1) => parseFiles E lk dirnode rest s1
    else parseFiles E lk dirnode rest s
end

/-- `root()`: return the cached root node; on first call allocate the root,
set the module cache (before parsing — `parse_node_file` re-enters `root`
through `node()`), parse the source directory, then run `init()` and fire
the `init_tree` event.  The fuel only bounds re-entrant first builds; the
inlined lambda is the `node(*slugs)` accessor (see `nodeLk`). -/
def rootF (E : Env) (src : FST) : Nat → St → Except Err Nat × St
  | fuel, s =>
    match s.cache with
    | some r => (.ok r, s)
    | none =>
      match fuel with
      | 0 => (.error .outOfFuel, s)
      | fuel' + 1 =>
        let a := alloc s Node.new
        let r := a.1
        let s1 := { a.2 with cache := some r }
        match parse_node_directoryF E
            (fun slugs t =>
              match rootF E src fuel' t with
              | (.error e, t1) => (.error e, t1)
              | (.ok r1, t1) => (.ok (descend t1 r1 slugs), t1))
            r src s1 with
        | (.error e, s2) => (.error e, s2)
        | (.ok _, s2) =>
          let s3 := init E r s2
          (.ok r, fire s3 (.init_tree r))

/-- `node(*slugs)`: call `root()`, then descend one slug at a time (this is
the accessor `rootF` passes, inlined, to the parser). -/
def nodeLk (E : Env) (src : FST) (fuel : Nat) (slugs : List String) (s : St) :
    Except Err (Option Nat) × St :=
  match rootF E src fuel s with
  | (.error e, t1) => (.error e, t1)
  | (.ok r1, t1) => (.ok (descend t1 r1 slugs), t1)

/-- The public `root()` accessor (fuel 1 covers the single level of
re-entrancy that actually occurs: inner `root()` calls always hit the
cache). -/
def root (E : Env) (src : FST) (s : St) : Except Err Nat × St :=
  rootF E src 1 s

/-- The public `node(*slugs)` accessor. -/
def node (E : Env) (src : FST) (slugs : List String) (s : St) :
    Except Err (Option Nat) × St :=
  nodeLk E src 1 slugs s


-- ### Dictionary lemmas

theorem dictLookup_dictInsert_self (k : String) (v : α) (d : List (String × α)) :
    dictLookup k (dictInsert k v d) = some v := by
  induction d with
  | nil => simp [dictInsert, dictLookup]
  | cons p rest ih =>
    by_cases h : p.1 = k
    · simp [dictInsert, h, dictLookup]
    · simp [dictInsert, h, dictLookup, ih]

theorem dictLookup_dictInsert_ne {k k' : String} (hk : k' ≠ k) (v : α)
    (d : List (String × α)) :
    dictLookup k' (dictInsert k v d) = dictLookup k' d := by
  have hk2 : ¬(k = k') := fun h => hk h.symm
  induction d with
  | nil => simp [dictInsert, dictLookup, hk2]
  | cons p rest ih =>
    by_cases h : p.1 = k
    · subst h
      have hp2 : ¬(p.1 = k') := fun h => hk h.symm
      simp [dictInsert, dictLookup, hk2, hp2]
    · simp only [dictInsert, if_neg h, dictLookup]
      by_cases h2 : p.1 = k'
      · simp [h2]
      · simp [h2, ih]

theorem mem_of_dictLookup_eq_some {k : String} {v : α} {d : List (String × α)}
    (h : dictLookup k d = some v) : (k, v) ∈ d := by
  induction d with
  | nil => simp [dictLookup] at h
  | cons p rest ih =>
    by_cases hp : p.1 = k
    · simp only [dictLookup, if_pos hp, Option.some.injEq] at h
      have : p = (k, v) := by
        cases p
        simp only [Prod.mk.injEq]
        exact ⟨hp, h⟩
      rw [← this]
      exact List.mem_cons_self _ _
    · simp only [dictLookup, if_neg hp] at h
      exact List.mem_cons_of_mem _ (ih h)

theorem keys_mem_of_dictLookup_eq_some {k : String} {v : α} {d : List (String × α)}
    (h : dictLookup k d = some v) : k ∈ d.map Prod.fst := by
  have := mem_of_dictLookup_eq_some h
  exact List.mem_map.mpr ⟨(k, v), this, rfl⟩

theorem dictLookup_eq_none {k : String} {d : List (String × α)} :
    dictLookup k d = none ↔ k ∉ d.map Prod.fst := by
  induction d with
  | nil => simp [dictLookup]
  | cons p rest ih =>
    by_cases hp : p.1 = k
    · simp [dictLookup, hp]
    · have hp2 : ¬(k = p.1) := fun h => hp h.symm
      simp only [dictLookup, if_neg hp, List.map_cons, List.mem_cons, not_or, ih]
      constructor
      · intro h
        exact ⟨hp2, h⟩
      · intro h
        exact h.2

theorem dictLookup_isSome_of_keys_mem {k : String} {d : List (String × α)}
    (h : k ∈ d.map Prod.fst) : (dictLookup k d).isSome := by
  cases hl : dictLookup k d with
  | none => exact absurd (dictLookup_eq_none.mp hl) (by simp [h])
  | some v => rfl

theorem dictLookup_eq_some_of_mem_nodup {k : String} {v : α} {d : List (String × α)}
    (hn : (d.map Prod.fst).Nodup) (hm : (k, v) ∈ d) : dictLookup k d = some v := by
  induction d with
  | nil => simp at hm
  | cons p rest ih =>
    simp only [List.map_cons, List.nodup_cons] at hn
    rcases List.mem_cons.mp hm with h | h
    · subst h
      simp [dictLookup]
    · have hp : p.1 ≠ k := by
        intro he
        exact hn.1 (he ▸ List.mem_map.mpr ⟨(k, v), h, rfl⟩)
      simp [dictLookup, hp]
      exact ih hn.2 h

theorem mem_dictInsert_weak {p : String × α} {k : String} {v : α}
    {d : List (String × α)} (h : p ∈ dictInsert k v d) :
    p = (k, v) ∨ p ∈ d := by
  induction d with
  | nil => simp [dictInsert] at h; left; exact h
  | cons q rest ih =>
    by_cases hq : q.1 = k
    · simp only [dictInsert, if_pos hq, List.mem_cons] at h
      rcases h with h | h
      · left; exact h
      · right; exact List.mem_cons_of_mem _ h
    · simp only [dictInsert, if_neg hq, List.mem_cons] at h
      rcases h with h | h
      · right; rw [h]; exact List.mem_cons_self _ _
      · rcases ih h with h2 | h2
        · left; exact h2
        · right; exact List.mem_cons_of_mem _ h2

theorem mem_dictInsert_elim {p : String × α} {k : String} {v : α}
    {d : List (String × α)} (hn : (d.map Prod.fst).Nodup)
    (h : p ∈ dictInsert k v d) :
    p = (k, v) ∨ (p ∈ d ∧ p.1 ≠ k) := by
  induction d with
  | nil => simp [dictInsert] at h; left; exact h
  | cons q rest ih =>
    simp only [List.map_cons, List.nodup_cons] at hn
    by_cases hq : q.1 = k
    · simp only [dictInsert, if_pos hq, List.mem_cons] at h
      rcases h with h | h
      · left; exact h
      · right
        refine ⟨List.mem_cons_of_mem _ h, ?_⟩
        intro he
        exact hn.1 (hq ▸ he ▸ List.mem_map.mpr ⟨p, h, rfl⟩)
    · simp only [dictInsert, if_neg hq, List.mem_cons] at h
      rcases h with h | h
      · subst h
        right
        exact ⟨List.mem_cons_self _ _, hq⟩
      · rcases ih hn.2 h with h2 | h2
        · left; exact h2
        · right; exact ⟨List.mem_cons_of_mem _ h2.1, h2.2⟩

theorem keys_dictInsert (k : String) (v : α) (d : List (String × α)) :
    (dictInsert k v d).map Prod.fst =
      if k ∈ d.map Prod.fst then d.map Prod.fst else d.map Prod.fst ++ [k] := by
  induction d with
  | nil => simp [dictInsert]
  | cons p rest ih =>
    by_cases hp : p.1 = k
    · simp [dictInsert, hp]
    · have hkp : ¬(k = p.1) := fun h => hp h.symm
      simp only [dictInsert, if_neg hp, List.map_cons, ih, List.mem_cons, hkp, false_or]
      by_cases hm : k ∈ rest.map Prod.fst
      · simp [hm]
      · simp [hm]

theorem keys_nodup_dictInsert (k : String) (v : α) {d : List (String × α)}
    (hn : (d.map Prod.fst).Nodup) : ((dictInsert k v d).map Prod.fst).Nodup := by
  rw [keys_dictInsert]
  by_cases hm : k ∈ d.map Prod.fst
  · simpa [hm]
  · simp [hm, hn, List.nodup_append]

theorem dictLookup_dictUpdate_not_mem {k : String} {other : List (String × α)}
    (h : k ∉ other.map Prod.fst) (d : List (String × α)) :
    dictLookup k (dictUpdate d other) = dictLookup k d := by
  induction other generalizing d with
  | nil => simp [dictUpdate]
  | cons p rest ih =>
    simp only [List.map_cons, List.mem_cons, not_or] at h
    simp only [dictUpdate, List.foldl_cons]
    rw [show (rest.foldl (fun acc q => dictInsert q.1 q.2 acc) (dictInsert p.1 p.2 d)) =
        dictUpdate (dictInsert p.1 p.2 d) rest from rfl, ih h.2]
    exact dictLookup_dictInsert_ne h.1 _ _

theorem dictLookup_dictUpdate_mem {k : String} {v : α} {other : List (String × α)}
    (hn : (other.map Prod.fst).Nodup) (hm : (k, v) ∈ other) (d : List (String × α)) :
    dictLookup k (dictUpdate d other) = some v := by
  induction other generalizing d with
  | nil => simp at hm
  | cons p rest ih =>
    simp only [List.map_cons, List.nodup_cons] at hn
    simp only [dictUpdate, List.foldl_cons]
    rcases List.mem_cons.mp hm with h | h
    · subst h
      rw [show (rest.foldl (fun acc q => dictInsert q.1 q.2 acc) (dictInsert k v d)) =
          dictUpdate (dictInsert k v d) rest from rfl]
      rw [dictLookup_dictUpdate_not_mem hn.1, dictLookup_dictInsert_self]
    · exact ih hn.2 h _

-- ### Heap and state operation lemmas

theorem heap_length_setNode (s : St) (n : Nat) (nd : NodeData) :
    (setNode s n nd).heap.length = s.heap.length := by
  simp [setNode]

theorem cache_setNode (s : St) (n : Nat) (nd : NodeData) :
    (setNode s n nd).cache = s.cache := rfl

theorem log_setNode (s : St) (n : Nat) (nd : NodeData) :
    (setNode s n nd).log = s.log := rfl

theorem getNode_setNode_self {s : St} {n : Nat} (h : n < s.heap.length)
    (nd : NodeData) : getNode (setNode s n nd) n = nd := by
  simp [getNode, setNode, List.getElem?_set_self h]

theorem getNode_setNode_ne {s : St} {m n : Nat} (h : m ≠ n) (nd : NodeData) :
    getNode (setNode s n nd) m = getNode s m := by
  simp [getNode, setNode, List.getElem?_set_ne (Ne.symm h)]

theorem alloc_fst (s : St) (nd : NodeData) : (alloc s nd).1 = s.heap.length := rfl

theorem heap_length_alloc (s : St) (nd : NodeData) :
    (alloc s nd).2.heap.length = s.heap.length + 1 := by
  simp [alloc]

theorem cache_alloc (s : St) (nd : NodeData) : (alloc s nd).2.cache = s.cache := rfl

theorem log_alloc (s : St) (nd : NodeData) : (alloc s nd).2.log = s.log := rfl

theorem getNode_alloc_self (s : St) (nd : NodeData) :
    getNode (alloc s nd).2 s.heap.length = nd := by
  simp [getNode, alloc, List.getElem?_append_right (Nat.le_refl _)]

theorem getNode_alloc_ne {s : St} {m : Nat} (h : m ≠ s.heap.length) (nd : NodeData) :
    getNode (alloc s nd).2 m = getNode s m := by
  rcases Nat.lt_or_ge m s.heap.length with hm | hm
  · simp [getNode, alloc, List.getElem?_append_left hm]
  · have hgt : s.heap.length < m := Nat.lt_of_le_of_ne hm (Ne.symm h)
    have h1 : (s.heap ++ [nd])[m]? = none := by
      apply List.getElem?_eq_none
      simp
      omega
    have h2 : s.heap[m]? = none := by
      apply List.getElem?_eq_none
      omega
    simp [getNode, alloc, h1, h2]

theorem getNode_fire (s : St) (e : Event) (n : Nat) :
    getNode (fire s e) n = getNode s n := rfl

theorem log_fire (s : St) (e : Event) : (fire s e).log = s.log ++ [e] := rfl

theorem getNode_of_ge {s : St} {n : Nat} (h : s.heap.length ≤ n) :
    getNode s n = Node.new := by
  have : s.heap[n]? = none := List.getElem?_eq_none h
  simp [getNode, this]


theorem setNode_setNode (s : St) (n : Nat) (a b : NodeData) :
    setNode (setNode s n a) n b = setNode s n b := by
  simp [setNode, List.set_set]

-- ### The index branch of `parse_node_file`

/-- Full characterization of the `index` branch of `parse_node_file`: the
directory node itself receives the text, the metadata and the extension,
in a single in-place update; nothing else changes. -/
theorem parse_node_fileF_index (E : Env) (lk : LookupFn) {dirnode : Nat}
    {stem : String} (suffix text : String) (meta : List (String × Val)) {s : St}
    (hid : E.slugify stem = "index") (hd : dirnode < s.heap.length) :
    parse_node_fileF E lk dirnode stem suffix text meta s =
      (.ok (), setNode s dirnode
        { getNode s dirnode with
            data := dictUpdate (dictInsert "text" text (getNode s dirnode).data) meta,
            ext := stripDots suffix }) := by
  simp only [parse_node_fileF, hid, if_pos]
  simp only [getNode_setNode_self, heap_length_setNode, hd, setNode_setNode]


-- ### Claim C3 and C10: the index merge and its frame effect

/-- C3: for every file whose normalized stem slugifies to the literal slug
`index` inside a directory, `parse_node_file` stores the file's text,
metadata and extension on the directory's own node, and adds no child node
at all (in particular none with slug `index`): every children dictionary in
the heap is unchanged and no node is allocated. -/
theorem index_file_merges_into_directory_node (E : Env) (lk : LookupFn)
    {dirnode : Nat} {stem : String} (suffix text : String)
    {meta : List (String × Val)} {s : St}
    (hid : E.slugify stem = "index") (hd : dirnode < s.heap.length)
    (hmn : (meta.map Prod.fst).Nodup) (hmt : "text" ∉ meta.map Prod.fst) :
    ∃ s', parse_node_fileF E lk dirnode stem suffix text meta s = (.ok (), s') ∧
      dictLookup "text" (getNode s' dirnode).data = some text ∧
      (∀ p ∈ meta, dictLookup p.1 (getNode s' dirnode).data = some p.2) ∧
      (getNode s' dirnode).ext = stripDots suffix ∧
      (∀ n, (getNode s' n).children = (getNode s n).children) ∧
      dictLookup "index" (getNode s' dirnode).children =
        dictLookup "index" (getNode s dirnode).children ∧
      s'.heap.length = s.heap.length := by
  refine ⟨_, parse_node_fileF_index E lk suffix text meta hid hd, ?_, ?_, ?_, ?_, ?_, ?_⟩
  · rw [getNode_setNode_self hd, dictLookup_dictUpdate_not_mem hmt,
      dictLookup_dictInsert_self]
  · intro p hp
    rw [getNode_setNode_self hd]
    exact dictLookup_dictUpdate_mem hmn hp _
  · rw [getNode_setNode_self hd]
  · intro n
    by_cases hn : n = dirnode
    · subst hn
      rw [getNode_setNode_self hd]
    · rw [getNode_setNode_ne hn]
  · rw [getNode_setNode_self hd]
  · exact heap_length_setNode _ _ _

/-- C10: frame effect of the index merge: processing an `index` file leaves
the directory node's slug, stem, parent reference and children dictionary
untouched; only the data dictionary (the `text` key and the file's metadata
keys, via one insert and one update) and the `ext` field change, and no
other heap node is modified. -/
theorem index_file_frame (E : Env) (lk : LookupFn) {dirnode : Nat}
    {stem : String} (suffix text : String) (meta : List (String × Val)) {s : St}
    (hid : E.slugify stem = "index") (hd : dirnode < s.heap.length) :
    ∃ s', parse_node_fileF E lk dirnode stem suffix text meta s = (.ok (), s') ∧
      (getNode s' dirnode).slug = (getNode s dirnode).slug ∧
      (getNode s' dirnode).stem = (getNode s dirnode).stem ∧
      (getNode s' dirnode).parent = (getNode s dirnode).parent ∧
      (getNode s' dirnode).children = (getNode s dirnode).children ∧
      (getNode s' dirnode).data =
        dictUpdate (dictInsert "text" text (getNode s dirnode).data) meta ∧
      (getNode s' dirnode).ext = stripDots suffix ∧
      (∀ m, m ≠ dirnode → getNode s' m = getNode s m) := by
  refine ⟨_, parse_node_fileF_index E lk suffix text meta hid hd,
    ?_, ?_, ?_, ?_, ?_, ?_, ?_⟩ <;>
    first
    | (rw [getNode_setNode_self hd])
    | (intro m hm; rw [getNode_setNode_ne hm])

/-- A concrete environment for witnesses: identity slugifier, `md` as the
only registered extension, a tagging renderer, identity filters. -/
def E0 : Env :=
  { slugify := fun t => t, callbacks := ["md"],
    render := fun tx e => String.intercalate ":" [tx, e],
    fText := fun tx _ => tx, fHtml := fun h _ => h }

/-- A trivial lookup function for witnesses of statements that never
consult it. -/
def lk0 : LookupFn := fun _ t => (.ok none, t)

/-- A one-node state for witnesses. -/
def sW : St := { heap := [Node.new], cache := some 0, log := [] }

theorem index_file_merges_into_directory_node_witness :
    E0.slugify "index" = "index" ∧ 0 < sW.heap.length ∧
    (([("author", "ann")] : List (String × Val)).map Prod.fst).Nodup ∧
    "text" ∉ (([("author", "ann")] : List (String × Val)).map Prod.fst) ∧
    (∃ s', parse_node_fileF E0 lk0 0 "index" ".md" "hello" [("author", "ann")] sW =
        (.ok (), s') ∧
      dictLookup "text" (getNode s' 0).data = some "hello" ∧
      (∀ p ∈ ([("author", "ann")] : List (String × Val)),
        dictLookup p.1 (getNode s' 0).data = some p.2) ∧
      (getNode s' 0).ext = stripDots ".md" ∧
      (∀ n, (getNode s' n).children = (getNode sW n).children) ∧
      dictLookup "index" (getNode s' 0).children =
        dictLookup "index" (getNode sW 0).children ∧
      s'.heap.length = sW.heap.length) :=
  ⟨rfl, by decide, by decide, by decide,
    index_file_merges_into_directory_node E0 lk0 ".md" "hello" rfl (by decide)
      (by decide) (by decide)⟩

theorem index_file_frame_witness :
    E0.slugify "index" = "index" ∧ 0 < sW.heap.length ∧
    (∃ s', parse_node_fileF E0 lk0 0 "index" ".md" "hello" [("author", "ann")] sW =
        (.ok (), s') ∧
      (getNode s' 0).slug = (getNode sW 0).slug ∧
      (getNode s' 0).stem = (getNode sW 0).stem ∧
      (getNode s' 0).parent = (getNode sW 0).parent ∧
      (getNode s' 0).children = (getNode sW 0).children ∧
      (getNode s' 0).data =
        dictUpdate (dictInsert "text" "hello" (getNode sW 0).data) [("author", "ann")] ∧
      (getNode s' 0).ext = stripDots ".md" ∧
      (∀ m, m ≠ 0 → getNode s' m = getNode sW m)) :=
  ⟨rfl, by decide,
    index_file_frame E0 lk0 ".md" "hello" [("author", "ann")] rfl (by decide)⟩


-- ### Parent chains: claims C5 and C7

/-- `PChain s n l`: following `parent` links upward from `n` visits exactly
the nodes of `l` and ends at a node with no parent (the root of `n`'s
chain). -/
inductive PChain (s : St) : Nat → List Nat → Prop where
  | nil {n : Nat} : (getNode s n).parent = none → PChain s n []
  | cons {n p : Nat} {l : List Nat} : (getNode s n).parent = some p →
      PChain s p l → PChain s n (p :: l)

/-- The value at `key` on the first node of a chain whose `data` holds
`key`, or `default` when none does — the claim's reading of `inherit`. -/
def chainFirst (s : St) (key : String) (default : Val) : List Nat → Val
  | [] => default
  | m :: rest =>
    match dictLookup key (getNode s m).data with
    | some v => v
    | none => chainFirst s key default rest

theorem inheritAux_spec {s : St} {key : String} {default : Val} :
    ∀ {fuel n : Nat} {anc : List Nat}, PChain s n anc → anc.length < fuel →
      inheritAux s key default fuel (some n) =
        chainFirst s key default (n :: anc) := by
  intro fuel
  induction fuel with
  | zero => intro n anc _ h; omega
  | succ f ih =>
    intro n anc hc hlen
    cases hc with
    | nil hp =>
      simp [inheritAux, chainFirst, hp]
    | cons hp hrest =>
      rename_i p l
      simp only [inheritAux, chainFirst, hp]
      cases hdl : dictLookup key (getNode s n).data with
      | none =>
        simp only [hdl]
        exact ih hrest (by simp at hlen; omega)
      | some v => simp [hdl]

theorem pathAux_spec {s : St} :
    ∀ {fuel n : Nat} {anc : List Nat}, PChain s n anc → anc.length < fuel →
      pathAux s fuel n = ((n :: anc).dropLast.map fun m => (getNode s m).slug) := by
  intro fuel
  induction fuel with
  | zero => intro n anc _ h; omega
  | succ f ih =>
    intro n anc hc hlen
    cases hc with
    | nil hp => simp [pathAux, hp]
    | cons hp hrest =>
      rename_i p l
      simp only [pathAux, hp]
      rw [ih hrest (by simp at hlen; omega)]
      simp [List.dropLast_cons_of_ne_nil]

-- ### Claim C5: inherit

/-- C5: `inherit(key, default)` returns the value stored under `key` on the
nearest node of the chain from the node itself through `parent` links up to
the root of its chain that holds `key`, and `default` when no node on the
chain (node and chain root included) holds it; being a total function of
the model, it raises no error. -/
theorem inherit_returns_nearest_ancestor_value {s : St} {n : Nat}
    {anc : List Nat} (hc : PChain s n anc) (hlen : anc.length < s.heap.length)
    (key : String) (default : Val) :
    inherit s n key default = chainFirst s key default (n :: anc) :=
  inheritAux_spec hc hlen

/-- A three-node chain for the C5 and C7 witnesses: `0 ← 1 ← 2` with a
`tpl` attribute on the root only; slugs `blog`, `2023`, `post`. -/
def sChain : St :=
  { heap :=
      [ { data := [("text", ""), ("html", ""), ("tpl", "base")], parent := none,
          children := [("blog", 1)], stem := "", slug := "", ext := "" },
        { data := [("text", ""), ("html", "")], parent := some 0,
          children := [("2023", 2)], stem := "blog", slug := "blog", ext := "" },
        { data := [("text", ""), ("html", "")], parent := some 1,
          children := [("post", 3)], stem := "2023", slug := "2023", ext := "" },
        { data := [("text", ""), ("html", "")], parent := some 2,
          children := [], stem := "post", slug := "post", ext := "md" } ],
    cache := some 0, log := [] }

theorem sChain_pchain3 : PChain sChain 3 [2, 1, 0] :=
  .cons rfl (.cons rfl (.cons rfl (.nil rfl)))

theorem inherit_returns_nearest_ancestor_value_witness :
    PChain sChain 3 [2, 1, 0] ∧ ([2, 1, 0] : List Nat).length < sChain.heap.length ∧
    inherit sChain 3 "tpl" "fallback" = chainFirst sChain "tpl" "fallback" [3, 2, 1, 0] :=
  ⟨sChain_pchain3, by decide,
    inherit_returns_nearest_ancestor_value sChain_pchain3 (by decide) "tpl" "fallback"⟩

-- ### Claim C7: path and url

/-- C7: `path` is the sequence of slugs from the root down to the node (the
chain nodes below the chain root, reversed into root-to-node order; the
root's path is empty), and `url` is `@root/` for the root and
`@root/` + path joined with `/` + `//` for every non-root node. -/
theorem path_and_url_forms {s : St} {n : Nat} {anc : List Nat}
    (hc : PChain s n anc) (hlen : anc.length < s.heap.length) :
    path s n = ((n :: anc).dropLast.map fun m => (getNode s m).slug).reverse ∧
    (anc = [] → url s n = "@root/") ∧
    (anc ≠ [] →
      url s n = "@root/" ++ String.intercalate "/" (path s n) ++ "//") := by
  refine ⟨by rw [path, pathAux_spec hc hlen], ?_, ?_⟩
  · intro h
    subst h
    cases hc with
    | nil hp => simp [url, hp]
  · intro h
    cases hc with
    | nil hp => exact absurd rfl h
    | cons hp hrest => simp [url, hp]

theorem path_and_url_forms_witness :
    PChain sChain 3 [2, 1, 0] ∧ ([2, 1, 0] : List Nat).length < sChain.heap.length ∧
    (path sChain 3 =
        (([3, 2, 1, 0] : List Nat).dropLast.map fun m => (getNode sChain m).slug).reverse ∧
      (([2, 1, 0] : List Nat) = [] → url sChain 3 = "@root/") ∧
      (([2, 1, 0] : List Nat) ≠ [] →
        url sChain 3 = "@root/" ++ String.intercalate "/" (path sChain 3) ++ "//")) ∧
    path sChain 3 = ["blog", "2023", "post"] ∧
    url sChain 3 = "@root/blog/2023/post//" ∧
    path sChain 0 = [] ∧ url sChain 0 = "@root/" :=
  ⟨sChain_pchain3, by decide,
    path_and_url_forms sChain_pchain3 (by decide),
    by decide, by decide, by decide, by decide⟩


-- ### Claim C9: childlist

theorem dictLookup_map_keys_eq {d : List (String × α)}
    (hn : (d.map Prod.fst).Nodup) :
    ((d.map Prod.fst).filterMap fun k => dictLookup k d) = d.map Prod.snd := by
  induction d with
  | nil => simp
  | cons p rest ih =>
    simp only [List.map_cons, List.nodup_cons] at hn
    simp only [List.map_cons, List.filterMap_cons]
    rw [show dictLookup p.1 (p :: rest) = some p.2 by simp [dictLookup]]
    have hcongr : ((rest.map Prod.fst).filterMap fun k => dictLookup k (p :: rest)) =
        ((rest.map Prod.fst).filterMap fun k => dictLookup k rest) := by
      apply List.filterMap_congr
      intro k hk
      have hne : p.1 ≠ k := fun he => hn.1 (he ▸ hk)
      simp [dictLookup, hne]
    rw [hcongr, ih hn.2]

theorem map_slug_filterMap {s : St} {n : Nat}
    (hs : ∀ p ∈ (getNode s n).children, (getNode s p.2).slug = p.1) :
    ∀ ks : List String, (∀ k ∈ ks, k ∈ (getNode s n).children.map Prod.fst) →
      (((ks.filterMap fun k => dictLookup k (getNode s n).children).map
        fun c => (getNode s c).slug) = ks) := by
  intro ks
  induction ks with
  | nil => intro _; simp
  | cons k rest ih =>
    intro hk
    have hmem : k ∈ (getNode s n).children.map Prod.fst :=
      hk k (List.mem_cons_self _ _)
    have hsome := dictLookup_isSome_of_keys_mem hmem
    cases hlk : dictLookup k (getNode s n).children with
    | none => rw [hlk] at hsome; simp at hsome
    | some c =>
      simp only [List.filterMap_cons, hlk, List.map_cons]
      rw [hs (k, c) (mem_of_dictLookup_eq_some hlk),
        ih fun k2 hk2 => hk k2 (List.mem_cons_of_mem _ hk2)]

/-- C9: `childlist` returns the node's children sorted ascending by slug:
it is a permutation of the children dictionary's values whose slug list is
exactly the ascending sort of the dictionary's keys — and the keys of the
children dictionary are the children's slugs, so this is slug order (not
stem order). -/
theorem childlist_sorted_by_slug {s : St} {n : Nat}
    (hn : ((getNode s n).children.map Prod.fst).Nodup)
    (hs : ∀ p ∈ (getNode s n).children, (getNode s p.2).slug = p.1) :
    List.Perm (childlist s n) ((getNode s n).children.map Prod.snd) ∧
    ((childlist s n).map fun c => (getNode s c).slug) =
      List.insertionSort strLe ((getNode s n).children.map Prod.fst) ∧
    List.Sorted strLe ((childlist s n).map fun c => (getNode s c).slug) ∧
    List.Sorted (· ≤ ·) ((childlist s n).map fun c => (getNode s c).slug) := by
  have hperm : List.Perm
      (List.insertionSort strLe ((getNode s n).children.map Prod.fst))
      ((getNode s n).children.map Prod.fst) := List.perm_insertionSort _ _
  have h2 : ((childlist s n).map fun c => (getNode s c).slug) =
      List.insertionSort strLe ((getNode s n).children.map Prod.fst) := by
    apply map_slug_filterMap hs
    intro k hk
    exact hperm.mem_iff.mp hk
  have hsorted : List.Sorted strLe
      ((childlist s n).map fun c => (getNode s c).slug) := by
    rw [h2]
    exact List.sorted_insertionSort _ _
  refine ⟨?_, h2, hsorted, ?_⟩
  · have hstep := hperm.filterMap (fun k => dictLookup k (getNode s n).children)
    rw [dictLookup_map_keys_eq hn] at hstep
    exact hstep
  · exact hsorted.imp fun h => String.le_iff_toList_le.mpr h

/-- A two-child state for the C9 witness (children listed out of slug
order in the dictionary). -/
def sKids : St :=
  { heap :=
      [ { data := [("text", ""), ("html", "")], parent := none,
          children := [("beta", 2), ("alpha", 1)], stem := "", slug := "", ext := "" },
        { data := [("text", ""), ("html", "")], parent := some 0,
          children := [], stem := "Alpha", slug := "alpha", ext := "" },
        { data := [("text", ""), ("html", "")], parent := some 0,
          children := [], stem := "Beta", slug := "beta", ext := "" } ],
    cache := some 0, log := [] }

theorem childlist_sorted_by_slug_witness :
    ((getNode sKids 0).children.map Prod.fst).Nodup ∧
    (∀ p ∈ (getNode sKids 0).children, (getNode sKids p.2).slug = p.1) ∧
    (List.Perm (childlist sKids 0) ((getNode sKids 0).children.map Prod.snd) ∧
      ((childlist sKids 0).map fun c => (getNode sKids c).slug) =
        List.insertionSort strLe ((getNode sKids 0).children.map Prod.fst) ∧
      List.Sorted strLe ((childlist sKids 0).map fun c => (getNode sKids c).slug) ∧
      List.Sorted (· ≤ ·) ((childlist sKids 0).map fun c => (getNode sKids c).slug)) ∧
    childlist sKids 0 = [1, 2] :=
  ⟨by decide, by decide,
    childlist_sorted_by_slug (by decide) (by decide), by rfl⟩


-- ### Structure preservation by `init`

/-- Structural agreement of two states: same cache and heap length, and
every node keeps its children, parent, slug and stem (only node data, the
extension and the event log may differ). -/
def EqStruct (s1 s2 : St) : Prop :=
  s1.cache = s2.cache ∧ s1.heap.length = s2.heap.length ∧
  ∀ m, (getNode s1 m).children = (getNode s2 m).children ∧
       (getNode s1 m).parent = (getNode s2 m).parent ∧
       (getNode s1 m).slug = (getNode s2 m).slug

theorem eqStruct_refl (s : St) : EqStruct s s :=
  ⟨rfl, rfl, fun _ => ⟨rfl, rfl, rfl⟩⟩

theorem eqStruct_trans {s1 s2 s3 : St} (h1 : EqStruct s1 s2)
    (h2 : EqStruct s2 s3) : EqStruct s1 s3 := by
  obtain ⟨a1, b1, c1⟩ := h1
  obtain ⟨a2, b2, c2⟩ := h2
  refine ⟨a1.trans a2, b1.trans b2, fun m => ?_⟩
  obtain ⟨x1, y1, z1⟩ := c1 m
  obtain ⟨x2, y2, z2⟩ := c2 m
  exact ⟨x1.trans x2, y1.trans y2, z1.trans z2⟩

theorem setNode_oob {s : St} {n : Nat} (h : s.heap.length ≤ n) (nd : NodeData) :
    setNode s n nd = s := by
  simp [setNode, List.set_eq_of_length_le h]

theorem eqStruct_setNode_data {s : St} {n : Nat} {d : List (String × Val)} :
    EqStruct (setNode s n { getNode s n with data := d }) s := by
  by_cases hlt : n < s.heap.length
  · refine ⟨rfl, heap_length_setNode _ _ _, fun m => ?_⟩
    by_cases hm : m = n
    · subst hm
      rw [getNode_setNode_self hlt]
      exact ⟨rfl, rfl, rfl⟩
    · rw [getNode_setNode_ne hm]
      exact ⟨rfl, rfl, rfl⟩
  · rw [setNode_oob (by omega)]
    exact eqStruct_refl s

theorem eqStruct_setNode_data_ext {s : St} {n : Nat} {d : List (String × Val)}
    {e : String} :
    EqStruct (setNode s n { getNode s n with data := d, ext := e }) s := by
  by_cases hlt : n < s.heap.length
  · refine ⟨rfl, heap_length_setNode _ _ _, fun m => ?_⟩
    by_cases hm : m = n
    · subst hm
      rw [getNode_setNode_self hlt]
      exact ⟨rfl, rfl, rfl⟩
    · rw [getNode_setNode_ne hm]
      exact ⟨rfl, rfl, rfl⟩
  · rw [setNode_oob (by omega)]
    exact eqStruct_refl s

theorem initAux_foldl_eqStruct {E : Env} {fuel : Nat}
    (ih : ∀ (n : Nat) (s : St), EqStruct (initAux E fuel n s) s) :
    ∀ (l : List (String × Nat)) (s : St),
      EqStruct (l.foldl (fun t p => initAux E fuel p.2 t) s) s
  | [], s => eqStruct_refl s
  | p :: rest, s => by
    rw [List.foldl_cons]
    exact eqStruct_trans (initAux_foldl_eqStruct ih rest _) (ih p.2 s)

theorem eqStruct_fire {s : St} {e : Event} : EqStruct (fire s e) s :=
  ⟨rfl, rfl, fun _ => ⟨rfl, rfl, rfl⟩⟩

theorem initNodeData_eqStruct (E : Env) (n : Nat) (s : St) :
    EqStruct (initNodeData E n s) s := by
  simp only [initNodeData]
  exact eqStruct_trans eqStruct_setNode_data eqStruct_setNode_data

theorem log_initNodeData (E : Env) (n : Nat) (s : St) :
    (initNodeData E n s).log = s.log := rfl

/-- `init` changes only node data and the event log: children, parents,
slugs, the heap length and the cache are untouched. -/
theorem initAux_eqStruct (E : Env) :
    ∀ (fuel n : Nat) (s : St), EqStruct (initAux E fuel n s) s
  | 0, _, s => eqStruct_refl s
  | fuel + 1, n, s => by
    simp only [initAux]
    exact eqStruct_trans eqStruct_fire
      (eqStruct_trans
        (initAux_foldl_eqStruct (fun n2 t => initAux_eqStruct E fuel n2 t) _ _)
        (initNodeData_eqStruct E n s))

theorem init_eqStruct (E : Env) (n : Nat) (s : St) : EqStruct (init E n s) s :=
  initAux_eqStruct E s.heap.length n s

theorem init_cache (E : Env) (n : Nat) (s : St) : (init E n s).cache = s.cache :=
  (init_eqStruct E n s).1


-- ### Cache behaviour of `root()` / `node()`

/-- When the cache is set, `root()` returns it and changes nothing. -/
theorem rootF_cache_hit {s : St} {r : Nat} (h : s.cache = some r)
    (E : Env) (src : FST) (fuel : Nat) : rootF E src fuel s = (.ok r, s) := by
  cases fuel <;> simp [rootF, h]

/-- When the cache is set, `node()` descends from the cached root and
changes nothing. -/
theorem nodeLk_cache_hit {s : St} {r : Nat} (h : s.cache = some r)
    (E : Env) (src : FST) (fuel : Nat) (slugs : List String) :
    nodeLk E src fuel slugs s = (.ok (descend s r slugs), s) := by
  simp [nodeLk, rootF_cache_hit h]

/-- The accessor lambda inside `rootF` is `nodeLk` at the inner fuel. -/
theorem rootF_lambda_eq_nodeLk (E : Env) (src : FST) (fuel : Nat) :
    (fun slugs t =>
      match rootF E src fuel t with
      | (.error e, t1) => (.error e, t1)
      | (.ok r1, t1) => (.ok (descend t1 r1 slugs), t1)) = nodeLk E src fuel :=
  rfl

/-- The property of the `node()` accessor the parser relies on during a
build: on any state whose cache holds `r` it descends from `r` and leaves
the state unchanged. -/
def CacheLk (lk : LookupFn) (r : Nat) : Prop :=
  ∀ (slugs : List String) (t : St), t.cache = some r →
    lk slugs t = (.ok (descend t r slugs), t)

theorem cacheLk_nodeLk (E : Env) (src : FST) (fuel : Nat) (r : Nat) :
    CacheLk (nodeLk E src fuel) r :=
  fun slugs t ht => nodeLk_cache_hit ht E src fuel slugs

-- ### `parse_node_file` / `parse_node_directory` preserve cache and log

theorem cache_linkChild (E : Env) (d : Nat) (stem : String) (s : St) :
    (linkChild E d stem s).2.cache = s.cache := by
  simp [linkChild, cache_setNode, cache_alloc]

theorem log_linkChild (E : Env) (d : Nat) (stem : String) (s : St) :
    (linkChild E d stem s).2.log = s.log := by
  simp [linkChild, log_setNode, log_alloc]

theorem parse_node_fileF_cache_log (E : Env) {lk : LookupFn} {r : Nat}
    (hlk : CacheLk lk r) (dirnode : Nat) (stem suffix text : String)
    (meta : List (String × Val)) (s : St) (hs : s.cache = some r) :
    (parse_node_fileF E lk dirnode stem suffix text meta s).2.cache = some r ∧
    (parse_node_fileF E lk dirnode stem suffix text meta s).2.log = s.log := by
  by_cases hid : E.slugify stem = "index"
  · simp [parse_node_fileF, hid, cache_setNode, log_setNode, hs]
  · simp only [parse_node_fileF, if_neg hid,
      hlk (path s dirnode ++ [E.slugify stem]) s hs]
    cases hdes : descend s r (path s dirnode ++ [E.slugify stem]) with
    | some m => simp [cache_setNode, log_setNode, hs]
    | none => simp [cache_setNode, log_setNode, cache_alloc, log_alloc, hs]

mutual
theorem parse_node_directoryF_cache_log (E : Env) {lk : LookupFn} {r : Nat}
    (hlk : CacheLk lk r) :
    ∀ (fs : FST) (d : Nat) (s : St), s.cache = some r →
      (parse_node_directoryF E lk d fs s).2.cache = some r ∧
      (parse_node_directoryF E lk d fs s).2.log = s.log
  | .file _ _ _ _, d, s, hs => by simpa [parse_node_directoryF] using hs
  | .dir _ false _, d, s, hs => by simpa [parse_node_directoryF] using hs
  | .dir stem true entries, d, s, hs => by
    have h1 := parseDirs_cache_log E hlk entries d s hs
    simp only [parse_node_directoryF]
    cases hr : parseDirs E lk d entries s with
    | mk res s1 =>
      rw [hr] at h1
      cases res with
      | error e => simpa using h1
      | ok u =>
        have h2 := parseFiles_cache_log E hlk entries d s1 h1.1
        simp only []
        exact ⟨h2.1, h2.2.trans h1.2⟩

theorem parseDirs_cache_log (E : Env) {lk : LookupFn} {r : Nat}
    (hlk : CacheLk lk r) :
    ∀ (es : List FST) (d : Nat) (s : St), s.cache = some r →
      (parseDirs E lk d es s).2.cache = some r ∧
      (parseDirs E lk d es s).2.log = s.log
  | [], _, _, hs => ⟨hs, rfl⟩
  | .file _ _ _ _ :: rest, d, s, hs => by
    simpa [parseDirs] using parseDirs_cache_log E hlk rest d s hs
  | .dir stem ok entries :: rest, d, s, hs => by
    simp only [parseDirs]
    have hc2 : (linkChild E d stem s).2.cache = some r := by
      rw [cache_linkChild]; exact hs
    have h1 := parse_node_directoryF_cache_log E hlk (.dir stem ok entries)
      (linkChild E d stem s).1 (linkChild E d stem s).2 hc2
    cases hr : parse_node_directoryF E lk (linkChild E d stem s).1
        (.dir stem ok entries) (linkChild E d stem s).2 with
    | mk res s3 =>
      rw [hr] at h1
      cases res with
      | error e =>
        simpa [log_linkChild] using h1
      | ok u =>
        have h2 := parseDirs_cache_log E hlk rest d s3 h1.1
        simp only []
        exact ⟨h2.1, h2.2.trans (h1.2.trans (log_linkChild E d stem s))⟩

theorem parseFiles_cache_log (E : Env) {lk : LookupFn} {r : Nat}
    (hlk : CacheLk lk r) :
    ∀ (es : List FST) (d : Nat) (s : St), s.cache = some r →
      (parseFiles E lk d es s).2.cache = some r ∧
      (parseFiles E lk d es s).2.log = s.log
  | [], _, _, hs => ⟨hs, rfl⟩
  | .dir _ _ _ :: rest, d, s, hs => by
    simpa [parseFiles] using parseFiles_cache_log E hlk rest d s hs
  | .file stem suffix text meta :: rest, d, s, hs => by
    simp only [parseFiles]
    by_cases h1 : startsWithDot stem
    · simpa [h1] using parseFiles_cache_log E hlk rest d s hs
    · by_cases h2 : stripDots suffix ∈ E.callbacks
      · simp only [h1, h2, Bool.false_eq_true, if_false, if_true]
        have h3 := parse_node_fileF_cache_log E hlk d stem suffix text meta s hs
        cases hr : parse_node_fileF E lk d stem suffix text meta s with
        | mk res s1 =>
          rw [hr] at h3
          cases res with
          | error e => simpa using h3
          | ok u =>
            have h4 := parseFiles_cache_log E hlk rest d s1 h3.1
            simp only []
            exact ⟨h4.1, h4.2.trans h3.2⟩
      · simpa [h1, h2] using parseFiles_cache_log E hlk rest d s hs
end


-- ### Claims C6 and C1: the cache behaviour of `root()`

/-- Unfolding of a cache-miss `root()` call: allocate the root, cache it,
then parse; on success initialize and fire `init_tree`. -/
theorem rootF_build (E : Env) (src : FST) {s : St} (hcs : s.cache = none)
    (fuel : Nat) :
    rootF E src (fuel + 1) s =
      match parse_node_directoryF E (nodeLk E src fuel) s.heap.length src
          { heap := s.heap ++ [Node.new], cache := some s.heap.length,
            log := s.log } with
      | (.error e, s2) => (.error e, s2)
      | (.ok _, s2) =>
        (.ok s.heap.length,
          fire (init E s.heap.length s2) (.init_tree s.heap.length)) := by
  rw [rootF, hcs]
  rfl

/-- C6: `root()` is memoizing: after a successful call the root is cached,
and a subsequent call returns the identical node with the state (heap,
cache and event log) completely unchanged — no re-scan, no
re-initialization, no re-fired events. -/
theorem root_memoizing {E : Env} {src : FST} {s s' : St} {r : Nat}
    (h : root E src s = (.ok r, s')) :
    s'.cache = some r ∧ root E src s' = (.ok r, s') := by
  have hc : s'.cache = some r := by
    cases hcs : s.cache with
    | some r0 =>
      rw [root, rootF_cache_hit hcs] at h
      simp only [Prod.mk.injEq] at h
      obtain ⟨h1, h2⟩ := h
      injection h1 with h1
      subst h1 h2
      exact hcs
    | none =>
      rw [root, rootF_build E src hcs 0] at h
      cases hp : parse_node_directoryF E (nodeLk E src 0) s.heap.length src
          { heap := s.heap ++ [Node.new], cache := some s.heap.length,
            log := s.log } with
      | mk res s2 =>
        rw [hp] at h
        cases res with
        | error e => simp at h
        | ok u =>
          simp only [Prod.mk.injEq] at h
          obtain ⟨h1, h2⟩ := h
          injection h1 with h1
          subst h1 h2
          have hc2 := (parse_node_directoryF_cache_log E
            (cacheLk_nodeLk E src 0 s.heap.length) src s.heap.length
            { heap := s.heap ++ [Node.new], cache := some s.heap.length,
              log := s.log } rfl).1
          rw [hp] at hc2
          simpa [fire, init_cache] using hc2
  exact ⟨hc, by rw [root, rootF_cache_hit hc]⟩

/-- C1 (amended): if the tree builder raises during the first `root()`
call, the error does propagate to the caller and construction aborts — but
because the fresh root node is assigned to the module cache before parsing
(a re-entrancy requirement of `node()`), the partially built tree stays
cached, and a subsequent `root()` call returns the half-built root without
re-attempting the build. -/
theorem root_error_still_caches {E : Env} {src : FST} {s s' : St} {e : Err}
    (hcs : s.cache = none) (h : root E src s = (.error e, s')) :
    s'.cache = some s.heap.length ∧
    root E src s' = (.ok s.heap.length, s') := by
  rw [root, rootF_build E src hcs 0] at h
  cases hp : parse_node_directoryF E (nodeLk E src 0) s.heap.length src
      { heap := s.heap ++ [Node.new], cache := some s.heap.length,
        log := s.log } with
  | mk res s2 =>
    rw [hp] at h
    cases res with
    | ok u => simp at h
    | error e2 =>
      simp only [Prod.mk.injEq] at h
      obtain ⟨h1, h2⟩ := h
      subst h2
      have hc2 := (parse_node_directoryF_cache_log E
        (cacheLk_nodeLk E src 0 s.heap.length) src s.heap.length
        { heap := s.heap ++ [Node.new], cache := some s.heap.length,
          log := s.log } rfl).1
      rw [hp] at hc2
      exact ⟨hc2, by rw [root, rootF_cache_hit hc2]⟩

/-- C1 counterexample: with an unreadable source directory the first
`root()` call raises `scanError`, yet the half-built root node (allocated
before parsing) is already cached — `cache` is not `none` — and a second
`root()` call returns that half-built tree.  This falsifies the claim's
"the partially built tree is not cached: a subsequent call to root() does
not return a half-built tree". -/
theorem root_error_counterexample :
    (root E0 (FST.dir "src" false []) St.empty).1 = .error .scanError ∧
    (root E0 (FST.dir "src" false []) St.empty).2.cache ≠ none ∧
    root E0 (FST.dir "src" false [])
        ((root E0 (FST.dir "src" false []) St.empty).2) =
      (.ok 0, (root E0 (FST.dir "src" false []) St.empty).2) :=
  ⟨rfl, by decide, rfl⟩

/-- A small readable source tree for the `root()` witnesses. -/
def srcW : FST :=
  .dir "src" true [.dir "sub" true [], .file "index" ".md" "hi" [("k", "v")]]

/-- The state after the first successful `root()` call on `srcW`. -/
def sW2 : St := (root E0 srcW St.empty).2

theorem root_memoizing_witness :
    root E0 srcW St.empty = (.ok 0, sW2) ∧
    (sW2.cache = some 0 ∧ root E0 srcW sW2 = (.ok 0, sW2)) :=
  ⟨by decide, @root_memoizing E0 srcW St.empty sW2 0 (by decide)⟩

theorem root_error_still_caches_witness :
    St.empty.cache = none ∧
    root E0 (FST.dir "src" false []) St.empty =
      (.error .scanError, (root E0 (FST.dir "src" false []) St.empty).2) ∧
    ((root E0 (FST.dir "src" false []) St.empty).2.cache =
        some St.empty.heap.length ∧
      root E0 (FST.dir "src" false [])
          ((root E0 (FST.dir "src" false []) St.empty).2) =
        (.ok St.empty.heap.length, (root E0 (FST.dir "src" false []) St.empty).2)) :=
  ⟨rfl, rfl, root_error_still_caches rfl rfl⟩


-- ### The builder invariant

/-- Child reachability: `ReachC s a b` when `b` is reached from `a` by
following `children` entries downward. -/
inductive ReachC (s : St) : Nat → Nat → Prop where
  | refl (n : Nat) : ReachC s n n
  | step {a b c : Nat} {sl : String} : ReachC s a b →
      (sl, c) ∈ (getNode s b).children → ReachC s a c

/-- The invariant the tree builder maintains: the cache holds the root
`r`, which is in bounds and has no parent; every node's children
dictionary has distinct keys; child references point strictly upward in
allocation order and stay in bounds; parent references point strictly
downward; and every child entry agrees with the child's `parent` and
`slug` fields. -/
def Inv (s : St) (r : Nat) : Prop :=
  s.cache = some r ∧ r < s.heap.length ∧ (getNode s r).parent = none ∧
  ∀ i, i < s.heap.length →
    (((getNode s i).children.map Prod.fst).Nodup ∧
     (∀ p ∈ (getNode s i).children, i < p.2 ∧ p.2 < s.heap.length) ∧
     (∀ q, (getNode s i).parent = some q → q < i) ∧
     (∀ p ∈ (getNode s i).children,
       (getNode s p.2).parent = some i ∧ (getNode s p.2).slug = p.1))

theorem inv_cache {s : St} {r : Nat} (h : Inv s r) : s.cache = some r := h.1

theorem inv_root_lt {s : St} {r : Nat} (h : Inv s r) : r < s.heap.length :=
  h.2.1

theorem inv_root_parent {s : St} {r : Nat} (h : Inv s r) :
    (getNode s r).parent = none := h.2.2.1

/-- A child entry forces its holder in bounds (out-of-bounds reads give the
fresh node, which has no children) and, under the invariant, bounds the
child strictly between the holder and the heap length. -/
theorem mem_children_lt {s : St} {r : Nat} (hinv : Inv s r) {b c : Nat}
    {sl : String} (hm : (sl, c) ∈ (getNode s b).children) :
    b < s.heap.length ∧ b < c ∧ c < s.heap.length := by
  by_cases hb : b < s.heap.length
  · have h2 := ((hinv.2.2.2 b hb).2.1 (sl, c) hm)
    exact ⟨hb, h2.1, h2.2⟩
  · rw [getNode_of_ge (by omega)] at hm
    simp [Node.new] at hm

theorem mem_children_parent_slug {s : St} {r : Nat} (hinv : Inv s r)
    {b c : Nat} {sl : String} (hm : (sl, c) ∈ (getNode s b).children) :
    (getNode s c).parent = some b ∧ (getNode s c).slug = sl :=
  (hinv.2.2.2 b (mem_children_lt hinv hm).1).2.2.2 (sl, c) hm

theorem reach_le {s : St} {r : Nat} (hinv : Inv s r) {a b : Nat}
    (h : ReachC s a b) : a ≤ b := by
  induction h with
  | refl => exact Nat.le_refl _
  | step h1 hm ih =>
    exact Nat.le_of_lt (Nat.lt_of_le_of_lt ih (mem_children_lt hinv hm).2.1)

theorem reach_lt_len {s : St} {r : Nat} (hinv : Inv s r) {a b : Nat}
    (ha : a < s.heap.length) (h : ReachC s a b) : b < s.heap.length := by
  cases h with
  | refl => exact ha
  | step h1 hm => exact (mem_children_lt hinv hm).2.2

/-- Reachability transfers to a state whose children dictionaries agree on
every node below the target. -/
theorem reach_of_children_eq {s s2 : St} {r : Nat} (hinv : Inv s r) :
    ∀ {d : Nat}, ReachC s r d →
      (∀ b, b < d → (getNode s2 b).children = (getNode s b).children) →
      ReachC s2 r d := by
  intro d h
  induction h with
  | refl => intro _; exact .refl _
  | step h1 hm ih =>
    intro hch
    rename_i b c sl
    have hbc : b < c := (mem_children_lt hinv hm).2.1
    have hb := ih (fun x hx => hch x (Nat.lt_trans hx hbc))
    exact .step hb (by rw [hch b hbc]; exact hm)

/-- Under the invariant every reachable node has a parent chain, whose
length is bounded by the node's index. -/
theorem pchain_of_reach {s : St} {r : Nat} (hinv : Inv s r) :
    ∀ {d : Nat}, ReachC s r d → ∃ l, PChain s d l ∧ l.length ≤ d := by
  intro d h
  induction h with
  | refl => exact ⟨[], .nil (inv_root_parent hinv), by simp⟩
  | step h1 hm ih =>
    rename_i b c sl
    obtain ⟨l, hl, hlen⟩ := ih
    have hps := mem_children_parent_slug hinv hm
    have hbc : b < c := (mem_children_lt hinv hm).2.1
    exact ⟨b :: l, .cons hps.1 hl, by simp; omega⟩

theorem descend_append (s : St) :
    ∀ (l1 l2 : List String) (n : Nat),
      descend s n (l1 ++ l2) =
        match descend s n l1 with
        | none => none
        | some m => descend s m l2
  | [], l2, n => rfl
  | sl :: rest, l2, n => by
    simp only [List.cons_append, descend]
    cases dictLookup sl (getNode s n).children with
    | none => rfl
    | some c => exact descend_append s rest l2 c

/-- Resolution: under the invariant, descending from the root along a
reachable node's `path` finds exactly that node (`node(*n.path) is n`). -/
theorem descend_path {s : St} {r : Nat} (hinv : Inv s r) :
    ∀ {d : Nat}, ReachC s r d → descend s r (path s d) = some d := by
  intro d h
  induction h with
  | refl =>
    have hr : (getNode s r).parent = none := inv_root_parent hinv
    have hp : path s r = [] := by
      unfold path
      cases hl : s.heap.length with
      | zero => simp [pathAux]
      | succ m => simp [pathAux, hr]
    rw [hp]
    rfl
  | step h1 hm ih =>
    rename_i b c sl
    have hps := mem_children_parent_slug hinv hm
    have hblen : b < s.heap.length := (mem_children_lt hinv hm).1
    have hbc : b < c := (mem_children_lt hinv hm).2.1
    have hclen : c < s.heap.length := (mem_children_lt hinv hm).2.2
    obtain ⟨l, hl, hlen⟩ := pchain_of_reach hinv h1
    have hlb : l.length < s.heap.length := by omega
    have hcchain : PChain s c (b :: l) := .cons hps.1 hl
    have hclchain : (b :: l).length < s.heap.length := by simp; omega
    have hpc : path s c = path s b ++ [sl] := by
      unfold path
      rw [pathAux_spec hcchain hclchain, pathAux_spec hl hlb]
      simp [List.dropLast_cons_of_ne_nil, hps.2]
    rw [hpc, descend_append, ih]
    have hnodup := (hinv.2.2.2 b hblen).1
    simp [descend, dictLookup_eq_some_of_mem_nodup hnodup hm]

/-- Re-inserting an existing binding leaves a dictionary with distinct
keys unchanged. -/
theorem dictInsert_self_mem {k : String} {v : α} {d : List (String × α)}
    (hn : (d.map Prod.fst).Nodup) (hm : (k, v) ∈ d) :
    dictInsert k v d = d := by
  induction d with
  | nil => simp at hm
  | cons p rest ih =>
    simp only [List.map_cons, List.nodup_cons] at hn
    rcases List.mem_cons.mp hm with h | h
    · subst h
      simp [dictInsert]
    · have hp : p.1 ≠ k := by
        intro he
        exact hn.1 (he ▸ List.mem_map.mpr ⟨(k, v), h, rfl⟩)
      simp only [dictInsert, if_neg hp]
      rw [ih hn.2 h]


-- ### State characterization of the builder steps

theorem linkChild_spec (E : Env) {d : Nat} (stem : String) {s : St}
    (hd : d < s.heap.length) :
    (linkChild E d stem s).1 = s.heap.length ∧
    (linkChild E d stem s).2.heap.length = s.heap.length + 1 ∧
    getNode (linkChild E d stem s).2 s.heap.length =
      { Node.new with slug := E.slugify stem, stem := stem, parent := some d } ∧
    getNode (linkChild E d stem s).2 d =
      { getNode s d with
          children := dictInsert (E.slugify stem) s.heap.length
            (getNode s d).children } ∧
    (∀ i, i ≠ d → i ≠ s.heap.length →
      getNode (linkChild E d stem s).2 i = getNode s i) := by
  have hdc : d ≠ s.heap.length := Nat.ne_of_lt hd
  have e1 : getNode (alloc s Node.new).2 s.heap.length = Node.new :=
    getNode_alloc_self s Node.new
  have hclt : s.heap.length < (alloc s Node.new).2.heap.length := by
    rw [heap_length_alloc]; omega
  have e2 : ∀ nd : NodeData, getNode (setNode (alloc s Node.new).2 s.heap.length nd) d =
      getNode s d := fun nd => by
    rw [getNode_setNode_ne hdc, getNode_alloc_ne hdc]
  have hdlt : ∀ nd : NodeData,
      d < (setNode (alloc s Node.new).2 s.heap.length nd).heap.length := fun nd => by
    rw [heap_length_setNode, heap_length_alloc]; omega
  refine ⟨rfl, ?_, ?_, ?_, ?_⟩
  · simp only [linkChild, alloc_fst]
    rw [heap_length_setNode, heap_length_setNode, heap_length_alloc]
  · simp only [linkChild, alloc_fst]
    rw [getNode_setNode_ne (Ne.symm hdc), getNode_setNode_self hclt, e1]
  · simp only [linkChild, alloc_fst]
    rw [getNode_setNode_self (hdlt _), e2]
  · intro i hid hic
    simp only [linkChild, alloc_fst]
    rw [getNode_setNode_ne hid, getNode_setNode_ne hic, getNode_alloc_ne hic]

/-- The conclusions the builder-invariant lemmas carry for a call that
modifies `d` in state `s`, producing `s2`: the invariant and the
reachability of `d` persist, the heap only grows, nodes below `n0` other
than `d` keep their records, `d` keeps its parent, slug and stem, and
`d`'s children stay at or above `n0`. -/
def Pres (r d n0 : Nat) (s s2 : St) : Prop :=
  Inv s2 r ∧ ReachC s2 r d ∧ s.heap.length ≤ s2.heap.length ∧
  (∀ i, i < n0 → i ≠ d → getNode s2 i = getNode s i) ∧
  (getNode s2 d).parent = (getNode s d).parent ∧
  (getNode s2 d).slug = (getNode s d).slug ∧
  (getNode s2 d).stem = (getNode s d).stem ∧
  (∀ p ∈ (getNode s2 d).children, n0 ≤ p.2)

theorem pres_trans {r d n0 : Nat} {s s1 s2 : St} (h1 : Pres r d n0 s s1)
    (h2 : Pres r d n0 s1 s2) : Pres r d n0 s s2 := by
  obtain ⟨a1, b1, c1, d1, e1, f1, g1, i1⟩ := h1
  obtain ⟨a2, b2, c2, d2, e2, f2, g2, i2⟩ := h2
  exact ⟨a2, b2, Nat.le_trans c1 c2,
    fun i hi hid => (d2 i hi hid).trans (d1 i hi hid),
    e2.trans e1, f2.trans f1, g2.trans g1, i2⟩

theorem pres_refl {r d n0 : Nat} {s : St} (hinv : Inv s r)
    (hreach : ReachC s r d) (hch : ∀ p ∈ (getNode s d).children, n0 ≤ p.2) :
    Pres r d n0 s s :=
  ⟨hinv, hreach, Nat.le_refl _, fun _ _ _ => rfl, rfl, rfl, rfl, hch⟩


-- ### Transport of the invariant along structural agreement

theorem reach_of_eqStruct {s s2 : St} (he : EqStruct s2 s) {a b : Nat}
    (h : ReachC s a b) : ReachC s2 a b := by
  induction h with
  | refl => exact .refl _
  | step h1 hm ih => exact .step ih (by rw [(he.2.2 _).1]; exact hm)

theorem inv_of_eqStruct {s s2 : St} {r : Nat} (he : EqStruct s2 s)
    (hinv : Inv s r) : Inv s2 r := by
  obtain ⟨hc, hl, hstr⟩ := he
  obtain ⟨i1, i2, i3, i4⟩ := hinv
  refine ⟨hc.trans i1, hl ▸ i2, (hstr r).2.1.trans i3, fun i hi => ?_⟩
  obtain ⟨j1, j2, j3, j4⟩ := i4 i (hl ▸ hi)
  refine ⟨(hstr i).1 ▸ j1, ?_, ?_, ?_⟩
  · intro p hp
    rw [hl]
    exact j2 p ((hstr i).1 ▸ hp)
  · intro q hq
    exact j3 q ((hstr i).2.1 ▸ hq)
  · intro p hp
    have := j4 p ((hstr i).1 ▸ hp)
    exact ⟨(hstr p.2).2.1.trans this.1, (hstr p.2).2.2.trans this.2⟩

theorem setNode_getNode_self {s : St} (n : Nat) :
    setNode s n (getNode s n) = s := by
  by_cases h : n < s.heap.length
  · have : s.heap.set n (getNode s n) = s.heap := by
      apply List.ext_getElem?
      intro m
      by_cases hm : m = n
      · subst hm
        rw [List.getElem?_set_self h, getNode, List.getElem?_eq_getElem h]
        simp
      · rw [List.getElem?_set_ne (Ne.symm hm)]
    simp [setNode, this]
  · rw [setNode_oob (by omega)]

-- ### The invariant is preserved by `linkChild`

theorem linkChild_pres (E : Env) {r d n0 : Nat} {s : St} (stem : String)
    (hinv : Inv s r) (hreach : ReachC s r d) (hn0 : n0 ≤ s.heap.length)
    (hch : ∀ p ∈ (getNode s d).children, n0 ≤ p.2) :
    Pres r d n0 s (linkChild E d stem s).2 ∧
    (linkChild E d stem s).1 = s.heap.length ∧
    ReachC (linkChild E d stem s).2 r s.heap.length ∧
    getNode (linkChild E d stem s).2 s.heap.length =
      { Node.new with slug := E.slugify stem, stem := stem, parent := some d } ∧
    (getNode (linkChild E d stem s).2 d).children =
      dictInsert (E.slugify stem) s.heap.length (getNode s d).children ∧
    (linkChild E d stem s).2.heap.length = s.heap.length + 1 := by
  have hd : d < s.heap.length :=
    reach_lt_len hinv (inv_root_lt hinv) hreach
  obtain ⟨hfst, hlen, hcnode, hdnode, hothers⟩ := linkChild_spec E stem hd
  set c := s.heap.length with hc
  set s2 := (linkChild E d stem s).2 with hs2
  have hdc : d ≠ c := Nat.ne_of_lt hd
  have hps : ∀ m, m ≠ c →
      (getNode s2 m).parent = (getNode s m).parent ∧
      (getNode s2 m).slug = (getNode s m).slug := by
    intro m hm
    by_cases hmd : m = d
    · subst hmd
      rw [hdnode]
      exact ⟨rfl, rfl⟩
    · rw [hothers m hmd hm]
      exact ⟨rfl, rfl⟩
  have hinv2 : Inv s2 r := by
    obtain ⟨i1, i2, i3, i4⟩ := hinv
    refine ⟨(cache_linkChild E d stem s).trans i1, by omega, ?_, ?_⟩
    · have hrc : r ≠ c := by omega
      exact ((hps r hrc).1).trans i3
    · intro i hi
      rw [hlen] at hi
      by_cases hic : i = c
      · subst hic
        rw [hcnode]
        refine ⟨by simp [Node.new], ?_, ?_, ?_⟩
        · intro p hp
          simp [Node.new] at hp
        · intro q hq
          simp [Node.new] at hq
          omega
        · intro p hp
          simp [Node.new] at hp
      · by_cases hid : i = d
        · subst hid
          rw [hdnode]
          obtain ⟨j1, j2, j3, j4⟩ := i4 i hd
          refine ⟨keys_nodup_dictInsert _ _ j1, ?_, j3, ?_⟩
          · intro p hp
            rcases mem_dictInsert_weak hp with h | h
            · rw [h]
              simp only []
              omega
            · have := j2 p h
              omega
          · intro p hp
            rcases mem_dictInsert_weak hp with h | h
            · rw [h]
              simp only []
              rw [hcnode]
              exact ⟨rfl, rfl⟩
            · have hj := j4 p h
              have hbnd := j2 p h
              have hpc : p.2 ≠ c := by omega
              have hpd : p.2 ≠ i := by omega
              rw [hothers p.2 hpd hpc]
              exact hj
        · have hilen : i < s.heap.length := by
            rcases Nat.lt_or_ge i s.heap.length with h | h
            · exact h
            · exfalso
              have : i = c := by omega
              exact hic this
          rw [hothers i hid hic]
          obtain ⟨j1, j2, j3, j4⟩ := i4 i hilen
          refine ⟨j1, ?_, j3, ?_⟩
          · intro p hp
            have := j2 p hp
            omega
          · intro p hp
            have hj := j4 p hp
            have hbnd := j2 p hp
            have hpc : p.2 ≠ c := by omega
            rw [(hps p.2 hpc).1, (hps p.2 hpc).2]
            exact hj
  have hreach2 : ReachC s2 r d := by
    apply reach_of_children_eq hinv hreach
    intro b hb
    have hbd : b ≠ d := by omega
    have hbc : b ≠ c := by omega
    rw [hothers b hbd hbc]
  have hmem : ((E.slugify stem), c) ∈ (getNode s2 d).children := by
    rw [hdnode]
    exact mem_of_dictLookup_eq_some (dictLookup_dictInsert_self _ _ _)
  refine ⟨⟨hinv2, hreach2, by omega, ?_, ?_, ?_, ?_, ?_⟩, hfst, ?_, hcnode, ?_, hlen⟩
  · intro i hi hid
    have hic : i ≠ c := by omega
    exact hothers i hid hic
  · rw [hdnode]
  · rw [hdnode]
  · rw [hdnode]
  · intro p hp
    rw [hdnode] at hp
    simp only [] at hp
    rcases mem_dictInsert_weak hp with h | h
    · rw [h]; simp only []; omega
    · exact hch p h
  · exact .step hreach2 hmem
  · rw [hdnode]


-- ### State characterization of `parse_node_file`

/-- During a build, the `node(*dirnode.path, slug)` lookup inside
`parse_node_file` is exactly the children lookup on `dirnode`. -/
theorem file_lookup_eq {s : St} {r d : Nat} (hinv : Inv s r)
    (hreach : ReachC s r d) (slug : String) :
    descend s r (path s d ++ [slug]) =
      dictLookup slug (getNode s d).children := by
  rw [descend_append, descend_path hinv hreach]
  show descend s d [slug] = dictLookup slug (getNode s d).children
  simp only [descend]
  cases dictLookup slug (getNode s d).children <;> rfl

/-- Coterminous reuse: when a node already exists under `dirnode` at the
file's slug, `parse_node_file` re-links that node and stores the text,
metadata and extension on it; no other node changes and nothing is
allocated. -/
theorem parse_node_fileF_existing (E : Env) {lk : LookupFn} {r : Nat}
    (hlk : CacheLk lk r) {s : St} {d m : Nat} {stem : String}
    (suffix text : String) (meta : List (String × Val))
    (hinv : Inv s r) (hreach : ReachC s r d)
    (hne : E.slugify stem ≠ "index")
    (hlkup : dictLookup (E.slugify stem) (getNode s d).children = some m) :
    ∃ s', parse_node_fileF E lk d stem suffix text meta s = (.ok (), s') ∧
      s'.heap.length = s.heap.length ∧ s'.cache = s.cache ∧ s'.log = s.log ∧
      (∀ i, i ≠ m → getNode s' i = getNode s i) ∧
      getNode s' m =
        { getNode s m with
            slug := E.slugify stem, stem := stem, parent := some d,
            data := dictUpdate (dictInsert "text" text (getNode s m).data) meta,
            ext := stripDots suffix } := by
  have hd : d < s.heap.length := reach_lt_len hinv (inv_root_lt hinv) hreach
  have hmem := mem_of_dictLookup_eq_some hlkup
  have hdm : d < m := (mem_children_lt hinv hmem).2.1
  have hmlen : m < s.heap.length := (mem_children_lt hinv hmem).2.2
  have hdm2 : d ≠ m := Nat.ne_of_lt hdm
  have hnodup := (hinv.2.2.2 d hd).1
  simp only [parse_node_fileF, if_neg hne, hlk _ s (inv_cache hinv),
    file_lookup_eq hinv hreach, hlkup]
  set A : NodeData := { getNode s m with
    slug := E.slugify stem, stem := stem, parent := some d } with hA
  have e3 : getNode (setNode s m A) m = A := getNode_setNode_self hmlen A
  have e3d : getNode (setNode s m A) d = getNode s d :=
    getNode_setNode_ne hdm2 A
  have e4 : setNode (setNode s m A) d
      { getNode (setNode s m A) d with
          children := dictInsert (E.slugify stem) m
            (getNode (setNode s m A) d).children } = setNode s m A := by
    rw [e3d, dictInsert_self_mem hnodup hmem]
    show setNode (setNode s m A) d (getNode s d) = setNode s m A
    rw [← e3d]
    exact setNode_getNode_self d
  have g1 : ∀ nd : NodeData, getNode (setNode s m nd) m = nd :=
    fun nd => getNode_setNode_self hmlen nd
  simp only [e4, e3, setNode_setNode, g1]
  refine ⟨_, rfl, heap_length_setNode _ _ _, rfl, rfl, ?_, ?_⟩
  · intro i him
    exact getNode_setNode_ne him _
  · rw [g1]

/-- Fresh file node: when no node exists under `dirnode` at the file's
slug, `parse_node_file` allocates one, links it under the slug, and stores
the text, metadata and extension on it; no other node changes. -/
theorem parse_node_fileF_fresh (E : Env) {lk : LookupFn} {r : Nat}
    (hlk : CacheLk lk r) {s : St} {d : Nat} {stem : String}
    (suffix text : String) (meta : List (String × Val))
    (hinv : Inv s r) (hreach : ReachC s r d)
    (hne : E.slugify stem ≠ "index")
    (hlkup : dictLookup (E.slugify stem) (getNode s d).children = none) :
    ∃ s', parse_node_fileF E lk d stem suffix text meta s = (.ok (), s') ∧
      s'.heap.length = s.heap.length + 1 ∧ s'.cache = s.cache ∧ s'.log = s.log ∧
      (∀ i, i ≠ d → i ≠ s.heap.length → getNode s' i = getNode s i) ∧
      getNode s' s.heap.length =
        { Node.new with
            slug := E.slugify stem, stem := stem, parent := some d,
            data := dictUpdate (dictInsert "text" text Node.new.data) meta,
            ext := stripDots suffix } ∧
      getNode s' d =
        { getNode s d with
            children := dictInsert (E.slugify stem) s.heap.length
              (getNode s d).children } := by
  have hd : d < s.heap.length := reach_lt_len hinv (inv_root_lt hinv) hreach
  have hdc : d ≠ s.heap.length := Nat.ne_of_lt hd
  simp only [parse_node_fileF, if_neg hne, hlk _ s (inv_cache hinv),
    file_lookup_eq hinv hreach, hlkup, alloc_fst]
  rw [getNode_alloc_self]
  set A : NodeData := { Node.new with
    slug := E.slugify stem, stem := stem, parent := some d } with hA
  have hclen1 : s.heap.length < (alloc s Node.new).2.heap.length := by
    rw [heap_length_alloc]; omega
  have e3 : getNode (setNode (alloc s Node.new).2 s.heap.length A)
      s.heap.length = A := getNode_setNode_self hclen1 A
  have e3d : getNode (setNode (alloc s Node.new).2 s.heap.length A) d =
      getNode s d := by
    rw [getNode_setNode_ne hdc, getNode_alloc_ne hdc]
  rw [e3d]
  set s4 := setNode (setNode (alloc s Node.new).2 s.heap.length A) d
    { getNode s d with
        children := dictInsert (E.slugify stem) s.heap.length (getNode s d).children }
    with hs4
  have hlen4 : s4.heap.length = s.heap.length + 1 := by
    rw [hs4, heap_length_setNode, heap_length_setNode, heap_length_alloc]
  have hclen4 : s.heap.length < s4.heap.length := by omega
  have e4c : getNode s4 s.heap.length = A := by
    rw [hs4, getNode_setNode_ne (Ne.symm hdc)]
    exact e3
  have e4d : getNode s4 d =
      { getNode s d with
          children := dictInsert (E.slugify stem) s.heap.length
            (getNode s d).children } := by
    rw [hs4]
    have hd4 : d < (setNode (alloc s Node.new).2 s.heap.length A).heap.length := by
      rw [heap_length_setNode, heap_length_alloc]
      omega
    exact getNode_setNode_self hd4 _
  have gc : ∀ nd : NodeData, getNode (setNode s4 s.heap.length nd) s.heap.length = nd :=
    fun nd => getNode_setNode_self hclen4 nd
  simp only [e4c, setNode_setNode, gc]
  refine ⟨_, rfl, ?_, rfl, rfl, ?_, ?_, ?_⟩
  · rw [heap_length_setNode, hlen4]
  · intro i hid hic
    rw [getNode_setNode_ne hic, hs4, getNode_setNode_ne hid,
      getNode_setNode_ne hic, getNode_alloc_ne hic]
  · rw [gc]
  · rw [getNode_setNode_ne hdc]
    exact e4d


-- ### The invariant is preserved by `parse_node_file`

/-- Generic invariant-extension step: a state that differs from `s` by one
fresh childless node linked under `d` satisfies the invariant. -/
theorem inv_link {s s2 : St} {r d : Nat} {slug : String} {cNode : NodeData}
    (hinv : Inv s r) (hd : d < s.heap.length)
    (hlen : s2.heap.length = s.heap.length + 1)
    (hcache : s2.cache = s.cache)
    (hcn : getNode s2 s.heap.length = cNode)
    (hcch : cNode.children = []) (hcp : cNode.parent = some d)
    (hcs : cNode.slug = slug)
    (hdn : getNode s2 d = { getNode s d with
      children := dictInsert slug s.heap.length (getNode s d).children })
    (hoth : ∀ i, i ≠ d → i ≠ s.heap.length → getNode s2 i = getNode s i) :
    Inv s2 r := by
  set c := s.heap.length with hc
  have hdc : d ≠ c := Nat.ne_of_lt hd
  have hps : ∀ m, m ≠ c →
      (getNode s2 m).parent = (getNode s m).parent ∧
      (getNode s2 m).slug = (getNode s m).slug := by
    intro m hm
    by_cases hmd : m = d
    · subst hmd
      rw [hdn]
      exact ⟨rfl, rfl⟩
    · rw [hoth m hmd hm]
      exact ⟨rfl, rfl⟩
  obtain ⟨i1, i2, i3, i4⟩ := hinv
  refine ⟨hcache.trans i1, by omega, ?_, ?_⟩
  · have hrc : r ≠ c := by omega
    exact ((hps r hrc).1).trans i3
  · intro i hi
    rw [hlen] at hi
    by_cases hic : i = c
    · subst hic
      rw [hcn]
      refine ⟨by rw [hcch]; simp, ?_, ?_, ?_⟩
      · intro p hp
        rw [hcch] at hp
        simp at hp
      · intro q hq
        rw [hcp] at hq
        injection hq with hq
        omega
      · intro p hp
        rw [hcch] at hp
        simp at hp
    · by_cases hid : i = d
      · subst hid
        rw [hdn]
        obtain ⟨j1, j2, j3, j4⟩ := i4 i hd
        refine ⟨keys_nodup_dictInsert _ _ j1, ?_, j3, ?_⟩
        · intro p hp
          rcases mem_dictInsert_weak hp with h | h
          · rw [h]
            simp only []
            omega
          · have := j2 p h
            omega
        · intro p hp
          rcases mem_dictInsert_weak hp with h | h
          · rw [h]
            simp only []
            rw [hcn, hcp, hcs]
            exact ⟨rfl, rfl⟩
          · have hj := j4 p h
            have hbnd := j2 p h
            have hpc : p.2 ≠ c := by omega
            have hpd : p.2 ≠ i := by omega
            rw [hoth p.2 hpd hpc]
            exact hj
      · have hilen : i < s.heap.length := by omega
        rw [hoth i hid hic]
        obtain ⟨j1, j2, j3, j4⟩ := i4 i hilen
        refine ⟨j1, ?_, j3, ?_⟩
        · intro p hp
          have := j2 p hp
          omega
        · intro p hp
          have hj := j4 p hp
          have hbnd := j2 p hp
          have hpc : p.2 ≠ c := by omega
          rw [(hps p.2 hpc).1, (hps p.2 hpc).2]
          exact hj

/-- Processing one file preserves the builder invariant and the tracking
facts (`Pres`), and always succeeds during a build. -/
theorem parse_node_fileF_pres (E : Env) {lk : LookupFn} {r d n0 : Nat}
    (hlk : CacheLk lk r) {s : St} (stem suffix text : String)
    (meta : List (String × Val))
    (hinv : Inv s r) (hreach : ReachC s r d) (hn0 : n0 ≤ s.heap.length)
    (hch : ∀ p ∈ (getNode s d).children, n0 ≤ p.2) :
    ∃ s', parse_node_fileF E lk d stem suffix text meta s = (.ok (), s') ∧
      Pres r d n0 s s' := by
  have hd : d < s.heap.length := reach_lt_len hinv (inv_root_lt hinv) hreach
  by_cases hid : E.slugify stem = "index"
  · rw [parse_node_fileF_index E lk suffix text meta hid hd]
    refine ⟨_, rfl, ?_⟩
    have he : EqStruct (setNode s d
        { getNode s d with
            data := dictUpdate (dictInsert "text" text (getNode s d).data) meta,
            ext := stripDots suffix }) s := eqStruct_setNode_data_ext
    refine ⟨inv_of_eqStruct he hinv, reach_of_eqStruct he hreach,
      Nat.le_of_eq he.2.1.symm, ?_, (he.2.2 d).2.1, (he.2.2 d).2.2, ?_, ?_⟩
    · intro i hi hidd
      exact getNode_setNode_ne hidd _
    · by_cases hlt : d < s.heap.length
      · rw [getNode_setNode_self hlt]
      · rw [setNode_oob (by omega)]
    · intro p hp
      rw [(he.2.2 d).1] at hp
      exact hch p hp
  · cases hlkup : dictLookup (E.slugify stem) (getNode s d).children with
    | some m =>
      obtain ⟨s', hstep, hlen, hcache, hlog, hoth, hm⟩ :=
        parse_node_fileF_existing E hlk suffix text meta hinv hreach hid hlkup
      have hmem := mem_of_dictLookup_eq_some hlkup
      have hdm : d < m := (mem_children_lt hinv hmem).2.1
      have hdm2 : d ≠ m := Nat.ne_of_lt hdm
      have hps := mem_children_parent_slug hinv hmem
      have he : EqStruct s' s := by
        refine ⟨hcache, hlen, fun i => ?_⟩
        by_cases him : i = m
        · subst him
          rw [hm]
          exact ⟨rfl, by simp only []; rw [hps.1], by simp only []; rw [hps.2]⟩
        · rw [hoth i him]
          exact ⟨rfl, rfl, rfl⟩
      refine ⟨s', hstep, inv_of_eqStruct he hinv, reach_of_eqStruct he hreach,
        Nat.le_of_eq hlen.symm, ?_, ?_, ?_, ?_, ?_⟩
      · intro i hi hidd
        have him : i ≠ m := by
          have := hch (E.slugify stem, m) hmem
          simp only [] at this
          omega
        exact hoth i him
      · rw [hoth d hdm2]
      · rw [hoth d hdm2]
      · rw [hoth d hdm2]
      · intro p hp
        rw [hoth d hdm2] at hp
        exact hch p hp
    | none =>
      obtain ⟨s', hstep, hlen, hcache, hlog, hoth, hcn, hdn⟩ :=
        parse_node_fileF_fresh E hlk suffix text meta hinv hreach hid hlkup
      have hdc : d ≠ s.heap.length := Nat.ne_of_lt hd
      have hinv2 : Inv s' r :=
        inv_link hinv hd hlen hcache hcn rfl rfl rfl hdn hoth
      have hreach2 : ReachC s' r d := by
        apply reach_of_children_eq hinv hreach
        intro b hb
        have hbd : b ≠ d := fun he2 => absurd (he2 ▸ hb) (lt_irrefl d)
        have hbc : b ≠ s.heap.length := by omega
        rw [hoth b hbd hbc]
      refine ⟨s', hstep, hinv2, hreach2, by omega, ?_, ?_, ?_, ?_, ?_⟩
      · intro i hi hidd
        have hic : i ≠ s.heap.length := by omega
        exact hoth i hidd hic
      · rw [hdn]
      · rw [hdn]
      · rw [hdn]
      · intro p hp
        rw [hdn] at hp
        simp only [] at hp
        rcases mem_dictInsert_weak hp with h | h
        · rw [h]
          simp only []
          omega
        · exact hch p h


/-- Transfer of `Pres` across a recursive call that works under a child
`c` of the current directory `d` (with `c` above every protected index). -/
theorem pres_descend {r d n0 c : Nat} {s2 s3 : St}
    (hinv2 : Inv s2 r) (hreach2 : ReachC s2 r d)
    (hch2 : ∀ p ∈ (getNode s2 d).children, n0 ≤ p.2)
    (hsub : Pres r c s2.heap.length s2 s3)
    (hdltc : d < c) (hcn0 : n0 ≤ c) (hclen : c < s2.heap.length) :
    Pres r d n0 s2 s3 := by
  obtain ⟨binv, breach, blen, both, bp, bs, bst, bch⟩ := hsub
  have hd2 : d < s2.heap.length := by omega
  have hdeq : getNode s3 d = getNode s2 d := both d hd2 (by omega)
  refine ⟨binv, ?_, blen, ?_, ?_, ?_, ?_, ?_⟩
  · apply reach_of_children_eq hinv2 hreach2
    intro b hb
    rw [both b (by omega) (by omega)]
  · intro i hi hid
    exact both i (by omega) (by omega)
  · rw [hdeq]
  · rw [hdeq]
  · rw [hdeq]
  · intro p hp
    rw [hdeq] at hp
    exact hch2 p hp

mutual
/-- `parse_node_directory` preserves the builder invariant. -/
theorem parse_node_directoryF_pres (E : Env) {lk : LookupFn} {r : Nat}
    (hlk : CacheLk lk r) :
    ∀ (fs : FST) (d n0 : Nat) (s : St), Inv s r → ReachC s r d →
      n0 ≤ s.heap.length → (∀ p ∈ (getNode s d).children, n0 ≤ p.2) →
      Pres r d n0 s (parse_node_directoryF E lk d fs s).2
  | .file _ _ _ _, d, n0, s, hinv, hreach, hn0, hch =>
    pres_refl hinv hreach hch
  | .dir _ false _, d, n0, s, hinv, hreach, hn0, hch =>
    pres_refl hinv hreach hch
  | .dir stem true entries, d, n0, s, hinv, hreach, hn0, hch => by
    have h1 := parseDirs_pres E hlk entries d n0 s hinv hreach hn0 hch
    simp only [parse_node_directoryF]
    cases hr : parseDirs E lk d entries s with
    | mk res s1 =>
      rw [hr] at h1
      cases res with
      | error e => exact h1
      | ok u =>
        have h2 := parseFiles_pres E hlk entries d n0 s1 h1.1 h1.2.1
          (Nat.le_trans hn0 h1.2.2.1) h1.2.2.2.2.2.2.2
        exact pres_trans h1 h2

/-- The subdirectory loop preserves the builder invariant. -/
theorem parseDirs_pres (E : Env) {lk : LookupFn} {r : Nat}
    (hlk : CacheLk lk r) :
    ∀ (es : List FST) (d n0 : Nat) (s : St), Inv s r → ReachC s r d →
      n0 ≤ s.heap.length → (∀ p ∈ (getNode s d).children, n0 ≤ p.2) →
      Pres r d n0 s (parseDirs E lk d es s).2
  | [], d, n0, s, hinv, hreach, hn0, hch => pres_refl hinv hreach hch
  | .file _ _ _ _ :: rest, d, n0, s, hinv, hreach, hn0, hch => by
    simp only [parseDirs]
    exact parseDirs_pres E hlk rest d n0 s hinv hreach hn0 hch
  | .dir stem ok entries :: rest, d, n0, s, hinv, hreach, hn0, hch => by
    simp only [parseDirs]
    obtain ⟨h1, hfst, hreachc, hcnode, hdch, hlen2⟩ :=
      linkChild_pres E stem hinv hreach hn0 hch
    have binv := h1.1
    have breach := h1.2.1
    have blen := h1.2.2.1
    have bch := h1.2.2.2.2.2.2.2
    have hd : d < s.heap.length :=
      reach_lt_len hinv (inv_root_lt hinv) hreach
    have hchc : ∀ p ∈ (getNode (linkChild E d stem s).2 s.heap.length).children,
        (linkChild E d stem s).2.heap.length ≤ p.2 := by
      intro p hp
      rw [hcnode] at hp
      simp [Node.new] at hp
    have hsub := parse_node_directoryF_pres E hlk (.dir stem ok entries)
      s.heap.length (linkChild E d stem s).2.heap.length
      (linkChild E d stem s).2 binv hreachc (Nat.le_refl _) hchc
    rw [hfst]
    cases hr : parse_node_directoryF E lk s.heap.length (.dir stem ok entries)
        (linkChild E d stem s).2 with
    | mk res s3 =>
      rw [hr] at hsub
      have h2 : Pres r d n0 (linkChild E d stem s).2 s3 :=
        pres_descend binv breach bch hsub hd (by omega) (by omega)
      cases res with
      | error e => exact pres_trans h1 h2
      | ok u =>
        have hlen3 : (linkChild E d stem s).2.heap.length ≤ s3.heap.length :=
          h2.2.2.1
        have h3 := parseDirs_pres E hlk rest d n0 s3 h2.1 h2.2.1
          (by omega) h2.2.2.2.2.2.2.2
        exact pres_trans h1 (pres_trans h2 h3)

/-- The file loop preserves the builder invariant. -/
theorem parseFiles_pres (E : Env) {lk : LookupFn} {r : Nat}
    (hlk : CacheLk lk r) :
    ∀ (es : List FST) (d n0 : Nat) (s : St), Inv s r → ReachC s r d →
      n0 ≤ s.heap.length → (∀ p ∈ (getNode s d).children, n0 ≤ p.2) →
      Pres r d n0 s (parseFiles E lk d es s).2
  | [], d, n0, s, hinv, hreach, hn0, hch => pres_refl hinv hreach hch
  | .dir _ _ _ :: rest, d, n0, s, hinv, hreach, hn0, hch => by
    simp only [parseFiles]
    exact parseFiles_pres E hlk rest d n0 s hinv hreach hn0 hch
  | .file stem suffix text meta :: rest, d, n0, s, hinv, hreach, hn0, hch => by
    simp only [parseFiles]
    by_cases h1 : startsWithDot stem
    · simp only [h1, if_true]
      exact parseFiles_pres E hlk rest d n0 s hinv hreach hn0 hch
    · by_cases h2 : stripDots suffix ∈ E.callbacks
      · simp only [h1, h2, Bool.false_eq_true, if_false, if_true]
        obtain ⟨s1, hstep, hpres⟩ := parse_node_fileF_pres E hlk stem suffix
          text meta hinv hreach hn0 hch
        rw [hstep]
        have h3 := parseFiles_pres E hlk rest d n0 s1 hpres.1 hpres.2.1
          (Nat.le_trans hn0 hpres.2.2.1) hpres.2.2.2.2.2.2.2
        exact pres_trans hpres h3
      · simp only [h1, h2, Bool.false_eq_true, if_false]
        exact parseFiles_pres E hlk rest d n0 s hinv hreach hn0 hch
end


-- ### The invariant holds after a successful build

/-- Inversion of a non-trivial reachability: the last child step. -/
theorem reach_last_step {s : St} {r n : Nat} (h : ReachC s r n) (hne : n ≠ r) :
    ∃ p sl, ReachC s r p ∧ (sl, n) ∈ (getNode s p).children := by
  cases h with
  | refl => exact absurd rfl hne
  | step h1 hm => exact ⟨_, _, h1, hm⟩

/-- The state right after the first `root()` call on a fresh process state
allocates and caches the root node. -/
def startSt : St := { heap := [Node.new], cache := some 0, log := [] }

theorem root_empty_build (E : Env) (src : FST) :
    root E src St.empty =
      match parse_node_directoryF E (nodeLk E src 0) 0 src startSt with
      | (.error e, s2) => (.error e, s2)
      | (.ok _, s2) => (.ok 0, fire (init E 0 s2) (.init_tree 0)) := by
  rw [root, rootF_build E src rfl 0]
  rfl

theorem inv_startSt : Inv startSt 0 := by
  refine ⟨rfl, by simp [startSt], rfl, ?_⟩
  intro i hi
  simp [startSt] at hi
  subst hi
  refine ⟨by simp [getNode, Node.new, startSt], ?_, ?_, ?_⟩
  · intro p hp
    simp [getNode, Node.new, startSt] at hp
  · intro q hq
    simp [getNode, Node.new, startSt] at hq
  · intro p hp
    simp [getNode, Node.new, startSt] at hp

theorem root_build_inv {E : Env} {src : FST} {r : Nat} {s' : St}
    (h : root E src St.empty = (.ok r, s')) : r = 0 ∧ Inv s' r := by
  rw [root_empty_build E src] at h
  have hch1 : ∀ p ∈ (getNode startSt 0).children, 1 ≤ p.2 := by
    intro p hp
    simp [getNode, Node.new, startSt] at hp
  have hpres := parse_node_directoryF_pres E (cacheLk_nodeLk E src 0 0) src 0 1
    startSt inv_startSt (.refl 0) (by simp [startSt]) hch1
  cases hp : parse_node_directoryF E (nodeLk E src 0) 0 src startSt with
  | mk res s2 =>
    rw [hp] at h
    rw [hp] at hpres
    cases res with
    | error e => simp at h
    | ok u =>
      simp only [Prod.mk.injEq] at h
      obtain ⟨h1, h2⟩ := h
      injection h1 with h1
      subst h1 h2
      refine ⟨rfl, ?_⟩
      have he : EqStruct (fire (init E 0 s2) (.init_tree 0)) s2 :=
        eqStruct_trans eqStruct_fire (init_eqStruct E 0 s2)
      exact inv_of_eqStruct he hpres.1

-- ### Claim C8: tree well-formedness

/-- C8: after a successful tree construction from a fresh process state,
the tree rooted at the cached root (index 0) is well formed: every
reachable node's children dictionary has pairwise-distinct slugs; the root
is the only reachable node without a parent; every other reachable node is
stored in its parent's children under its own slug; no node hangs under
two parents or two slugs; and no child step closes a cycle. -/
theorem tree_well_formed {E : Env} {src : FST} {r : Nat} {s' : St}
    (h : root E src St.empty = (.ok r, s')) :
    r = 0 ∧
    (∀ n, ReachC s' r n → ((getNode s' n).children.map Prod.fst).Nodup) ∧
    (getNode s' r).parent = none ∧
    (∀ n, ReachC s' r n → (getNode s' n).parent = none → n = r) ∧
    (∀ n, ReachC s' r n → n ≠ r → ∃ p, (getNode s' n).parent = some p ∧
      ReachC s' r p ∧ ((getNode s' n).slug, n) ∈ (getNode s' p).children) ∧
    (∀ p1 p2 sl1 sl2 c, (sl1, c) ∈ (getNode s' p1).children →
      (sl2, c) ∈ (getNode s' p2).children → p1 = p2 ∧ sl1 = sl2) ∧
    (∀ n c sl, (sl, c) ∈ (getNode s' n).children → ¬ ReachC s' c n) := by
  obtain ⟨hr0, hinv⟩ := root_build_inv h
  refine ⟨hr0, ?_, inv_root_parent hinv, ?_, ?_, ?_, ?_⟩
  · intro n hn
    exact (hinv.2.2.2 n (reach_lt_len hinv (inv_root_lt hinv) hn)).1
  · intro n hn hp
    by_contra hne
    obtain ⟨p, sl, hrp, hm⟩ := reach_last_step hn hne
    have := (mem_children_parent_slug hinv hm).1
    rw [hp] at this
    exact Option.noConfusion this
  · intro n hn hne
    obtain ⟨p, sl, hrp, hm⟩ := reach_last_step hn hne
    obtain ⟨hpar, hslug⟩ := mem_children_parent_slug hinv hm
    exact ⟨p, hpar, hrp, by rw [hslug]; exact hm⟩
  · intro p1 p2 sl1 sl2 c hm1 hm2
    obtain ⟨hpar1, hslug1⟩ := mem_children_parent_slug hinv hm1
    obtain ⟨hpar2, hslug2⟩ := mem_children_parent_slug hinv hm2
    have hp12 : p1 = p2 :=
      Option.some.inj (hpar1.symm.trans hpar2)
    exact ⟨hp12, hslug1.symm.trans hslug2⟩
  · intro n c sl hm hrc
    have h1 : n < c := (mem_children_lt hinv hm).2.1
    have h2 : c ≤ n := reach_le hinv hrc
    omega

theorem tree_well_formed_witness :
    root E0 srcW St.empty = (.ok 0, sW2) ∧
    (0 = 0 ∧
      (∀ n, ReachC sW2 0 n → ((getNode sW2 n).children.map Prod.fst).Nodup) ∧
      (getNode sW2 0).parent = none ∧
      (∀ n, ReachC sW2 0 n → (getNode sW2 n).parent = none → n = 0) ∧
      (∀ n, ReachC sW2 0 n → n ≠ 0 → ∃ p, (getNode sW2 n).parent = some p ∧
        ReachC sW2 0 p ∧ ((getNode sW2 n).slug, n) ∈ (getNode sW2 p).children) ∧
      (∀ p1 p2 sl1 sl2 c, (sl1, c) ∈ (getNode sW2 p1).children →
        (sl2, c) ∈ (getNode sW2 p2).children → p1 = p2 ∧ sl1 = sl2) ∧
      (∀ n c sl, (sl, c) ∈ (getNode sW2 n).children → ¬ ReachC sW2 c n)) :=
  ⟨by decide, @tree_well_formed E0 srcW 0 sW2 (by decide)⟩


-- ### Postorder characterization of the `init` event log

/-- Pure postorder traversal of a children map (fuelled like `initAux`). -/
def postF (ch : Nat → List (String × Nat)) : Nat → Nat → List Nat
  | 0, _ => []
  | fuel + 1, n =>
    ((ch n).foldl (fun acc p => acc ++ postF ch fuel p.2) []) ++ [n]

theorem foldl_append_eq_join (f : α → List β) :
    ∀ (l : List α) (a : List β),
      l.foldl (fun acc p => acc ++ f p) a = a ++ (l.map f).join
  | [], a => by simp
  | p :: rest, a => by
    simp only [List.foldl_cons, List.map_cons, List.join]
    rw [foldl_append_eq_join f rest (a ++ f p)]
    simp

theorem postF_succ (ch : Nat → List (String × Nat)) (fuel n : Nat) :
    postF ch (fuel + 1) n =
      ((ch n).map (fun p => postF ch fuel p.2)).join ++ [n] := by
  simp only [postF]
  rw [foldl_append_eq_join]
  simp

theorem postF_congr {ch1 ch2 : Nat → List (String × Nat)}
    (h : ∀ i, ch1 i = ch2 i) (fuel n : Nat) :
    postF ch1 fuel n = postF ch2 fuel n := by
  have : ch1 = ch2 := funext h
  rw [this]

theorem initAux_foldl_log (E : Env) (fuel : Nat)
    (ch : Nat → List (String × Nat))
    (ih : ∀ (n : Nat) (t : St), (∀ i, (getNode t i).children = ch i) →
      (initAux E fuel n t).log =
        t.log ++ (postF ch fuel n).map Event.init_node) :
    ∀ (l : List (String × Nat)) (t : St),
      (∀ i, (getNode t i).children = ch i) →
      (l.foldl (fun acc p => initAux E fuel p.2 acc) t).log =
        t.log ++ ((l.map (fun p => postF ch fuel p.2)).join).map Event.init_node
  | [], t, hch => by simp
  | p :: rest, t, hch => by
    simp only [List.foldl_cons, List.map_cons, List.join]
    have ht2 : ∀ i, (getNode (initAux E fuel p.2 t) i).children = ch i := by
      intro i
      rw [((initAux_eqStruct E fuel p.2 t).2.2 i).1]
      exact hch i
    rw [initAux_foldl_log E fuel ch ih rest (initAux E fuel p.2 t) ht2,
      ih p.2 t hch]
    simp

/-- The event log of `init`: the events fired are exactly the `init_node`
events of the postorder traversal, appended to the existing log. -/
theorem initAux_log (E : Env) :
    ∀ (fuel n : Nat) (s : St) (ch : Nat → List (String × Nat)),
      (∀ i, (getNode s i).children = ch i) →
      (initAux E fuel n s).log =
        s.log ++ (postF ch fuel n).map Event.init_node
  | 0, n, s, ch, hch => by simp [initAux, postF]
  | fuel + 1, n, s, ch, hch => by
    simp only [initAux, postF]
    rw [foldl_append_eq_join]
    have hstr : ∀ i, (getNode (initNodeData E n s) i).children = ch i := by
      intro i
      rw [((initNodeData_eqStruct E n s).2.2 i).1]
      exact hch i
    rw [log_fire, initAux_foldl_log E fuel ch
      (fun n2 t ht => initAux_log E fuel n2 t ch ht) _ _ hstr]
    rw [log_initNodeData, hstr n]
    simp


-- ### Bottom-up ordering of the `init_node` events (claim C4)

/-- The children map of a state, as a function on node ids. -/
abbrev chOf (s : St) : Nat → List (String × Nat) :=
  fun i => (getNode s i).children

theorem eqStruct_symm {s1 s2 : St} (h : EqStruct s1 s2) : EqStruct s2 s1 := by
  obtain ⟨a, b, c⟩ := h
  refine ⟨a.symm, b.symm, fun m => ?_⟩
  obtain ⟨x, y, z⟩ := c m
  exact ⟨x.symm, y.symm, z.symm⟩

/-- Prepending a child step to a reachability chain. -/
theorem reach_head {s : St} {n c m : Nat} {sl : String}
    (hm : (sl, c) ∈ (getNode s n).children) (h : ReachC s c m) :
    ReachC s n m := by
  induction h with
  | refl => exact .step (.refl n) hm
  | step h1 hm2 ih => exact .step ih hm2

/-- Inversion of reachability at the first step. -/
theorem reach_first_step {s : St} {n m : Nat} (h : ReachC s n m) :
    m = n ∨ ∃ sl c, (sl, c) ∈ (getNode s n).children ∧ ReachC s c m := by
  induction h with
  | refl => exact Or.inl rfl
  | step h1 hm ih =>
    rename_i b c sl
    cases ih with
    | inl he =>
      subst he
      exact Or.inr ⟨sl, c, hm, .refl c⟩
    | inr hex =>
      obtain ⟨sl0, c0, hm0, hc0⟩ := hex
      exact Or.inr ⟨sl0, c0, hm0, .step hc0 hm⟩

/-- `postF` is insensitive to the fuel once the fuel covers the heap slots
above the start node. -/
theorem postF_stable {s : St} {r : Nat} (hinv : Inv s r) :
    ∀ (f1 f2 n : Nat), n < s.heap.length →
      s.heap.length ≤ f1 + n → s.heap.length ≤ f2 + n →
      postF (chOf s) f1 n = postF (chOf s) f2 n
  | 0, _, n, hn, h1, _ => absurd hn (by omega)
  | _ + 1, 0, n, hn, _, h2 => absurd hn (by omega)
  | f1 + 1, f2 + 1, n, hn, h1, h2 => by
    rw [postF_succ, postF_succ]
    have hmap : (chOf s n).map (fun p => postF (chOf s) f1 p.2) =
        (chOf s n).map (fun p => postF (chOf s) f2 p.2) := by
      apply List.map_congr_left
      intro p hp
      have hb := mem_children_lt hinv
        (show (p.1, p.2) ∈ (getNode s n).children from hp)
      exact postF_stable hinv f1 f2 p.2 hb.2.2 (by omega) (by omega)
    rw [hmap]

/-- Everything listed by `postF` is reachable from the start node. -/
theorem postF_mem_reach {s : St} {r : Nat} (hinv : Inv s r) :
    ∀ (fuel n m : Nat), m ∈ postF (chOf s) fuel n → ReachC s n m
  | 0, n, m, hm => by simp [postF] at hm
  | fuel + 1, n, m, hm => by
    rw [postF_succ] at hm
    rcases List.mem_append.1 hm with hj | hs
    · obtain ⟨l, hl, hml⟩ := List.mem_join.1 hj
      obtain ⟨p, hp, hpe⟩ := List.mem_map.1 hl
      rw [← hpe] at hml
      exact reach_head (show (p.1, p.2) ∈ (getNode s n).children from hp)
        (postF_mem_reach hinv fuel p.2 m hml)
    · have he : m = n := List.mem_singleton.1 hs
      rw [he]
      exact .refl n

/-- Every reachable node is listed by `postF`, given enough fuel. -/
theorem reach_mem_postF {s : St} {r : Nat} (hinv : Inv s r) :
    ∀ (fuel n m : Nat), n < s.heap.length → s.heap.length ≤ fuel + n →
      ReachC s n m → m ∈ postF (chOf s) fuel n
  | 0, n, _, hn, hf, _ => absurd hn (by omega)
  | fuel + 1, n, m, hn, hf, hr => by
    rw [postF_succ]
    rcases reach_first_step hr with he | hex
    · subst he
      exact List.mem_append.2 (Or.inr (List.mem_singleton.2 rfl))
    · obtain ⟨sl, c, hmc, hcm⟩ := hex
      have hb := mem_children_lt hinv hmc
      refine List.mem_append.2 (Or.inl (List.mem_join.2
        ⟨postF (chOf s) fuel c, ?_,
          reach_mem_postF hinv fuel c m hb.2.2 (by omega) hcm⟩))
      exact List.mem_map.2 ⟨(sl, c), hmc, rfl⟩

theorem count_join_eq_sum [BEq β] (a : β) :
    ∀ (L : List (List β)), List.count a L.join = (L.map (List.count a)).sum
  | [] => rfl
  | l :: rest => by
    simp only [List.join_cons, List.count_append, List.map_cons,
      List.sum_cons, count_join_eq_sum a rest]

/-- A sum of naturals over a duplicate-free list is `1` when some element
contributes `1` and any two nonzero contributors coincide. -/
theorem sum_count_one {g : α → Nat} :
    ∀ (l : List α), l.Nodup →
      (∀ p, p ∈ l → ∀ q, q ∈ l → g p ≠ 0 → g q ≠ 0 → p = q) →
      (∃ p, p ∈ l ∧ g p = 1) →
      (l.map g).sum = 1
  | [], _, _, hex => by
    obtain ⟨p0, hp0, _⟩ := hex
    exact absurd hp0 (List.not_mem_nil p0)
  | p :: rest, hnd, huniq, hex => by
    simp only [List.map_cons, List.sum_cons]
    by_cases hp : g p = 0
    · have hex2 : ∃ q, q ∈ rest ∧ g q = 1 := by
        obtain ⟨p0, hp0, hg0⟩ := hex
        cases List.mem_cons.1 hp0 with
        | inl he =>
          rw [he] at hg0
          exact absurd hg0 (by rw [hp]; exact zero_ne_one)
        | inr hm => exact ⟨p0, hm, hg0⟩
      rw [hp, sum_count_one rest (List.Nodup.of_cons hnd)
        (fun a ha b hb => huniq a (List.mem_cons_of_mem p ha)
          b (List.mem_cons_of_mem p hb)) hex2]
    · have hp1 : g p = 1 := by
        obtain ⟨p0, hp0, hg0⟩ := hex
        have hne0 : g p0 ≠ 0 := by rw [hg0]; exact one_ne_zero
        have hpp : p0 = p := huniq p0 hp0 p (List.mem_cons_self p rest) hne0 hp
        rw [← hpp]
        exact hg0
      have hrest : (rest.map g).sum = 0 := by
        apply List.sum_eq_zero
        intro x hx
        obtain ⟨q, hq, hqe⟩ := List.mem_map.1 hx
        rw [← hqe]
        by_contra hq0
        have hqp : q = p := huniq q (List.mem_cons_of_mem p hq)
          p (List.mem_cons_self p rest) hq0 hp
        rw [hqp] at hq
        exact (List.nodup_cons.1 hnd).1 hq
      rw [hp1, hrest]

/-- Two ancestors of a common node are comparable in the child order. -/
theorem reach_comparable {s : St} {r : Nat} (hinv : Inv s r) {a m : Nat}
    (ha : ReachC s a m) :
    ∀ b, ReachC s b m → ReachC s a b ∨ ReachC s b a := by
  induction ha with
  | refl =>
    intro b hb
    exact Or.inr hb
  | step h1 hm ih =>
    rename_i p c sl
    intro b hb
    by_cases hcb : c = b
    · subst hcb
      exact Or.inl (.step h1 hm)
    · obtain ⟨p2, sl2, hbp2, hm2⟩ := reach_last_step hb hcb
      have hpar1 := (mem_children_parent_slug hinv hm).1
      have hpar2 := (mem_children_parent_slug hinv hm2).1
      have hpp : p2 = p := Option.some.inj (hpar2.symm.trans hpar1)
      subst hpp
      exact ih b hbp2

/-- A child of `n` cannot reach a distinct child of `n`. -/
theorem reach_between_children {s : St} {r n a b : Nat} (hinv : Inv s r)
    {sla slb : String} (hpa : (sla, a) ∈ (getNode s n).children)
    (hpb : (slb, b) ∈ (getNode s n).children)
    (hab : ReachC s a b) : a = b := by
  by_cases he : b = a
  · exact he.symm
  · obtain ⟨pp, sl2, hap, hm2⟩ := reach_last_step hab he
    have h1 := (mem_children_parent_slug hinv hm2).1
    have h2 := (mem_children_parent_slug hinv hpb).1
    have hpn : pp = n := Option.some.inj (h1.symm.trans h2)
    subst hpn
    have hle := reach_le hinv hap
    have hlt := (mem_children_lt hinv hpa).2.1
    omega

/-- Distinct child entries of `n` head disjoint subtrees: a node reachable
from two child entries forces the entries to coincide. -/
theorem child_reach_unique {s : St} {r n : Nat} (hinv : Inv s r)
    {p q : String × Nat} (hp : p ∈ (getNode s n).children)
    (hq : q ∈ (getNode s n).children) {m : Nat}
    (hrp : ReachC s p.2 m) (hrq : ReachC s q.2 m) : p = q := by
  have hp2 : (p.1, p.2) ∈ (getNode s n).children := hp
  have hq2 : (q.1, q.2) ∈ (getNode s n).children := hq
  have hval : p.2 = q.2 := by
    rcases reach_comparable hinv hrp q.2 hrq with hc | hc
    · exact reach_between_children hinv hp2 hq2 hc
    · exact (reach_between_children hinv hq2 hp2 hc).symm
  have hs1 := (mem_children_parent_slug hinv hp2).2
  have hs2 := (mem_children_parent_slug hinv hq2).2
  have hkey : p.1 = q.1 := by
    rw [← hs1, ← hs2, hval]
  exact Prod.ext hkey hval

/-- Each reachable node occurs exactly once in the postorder listing. -/
theorem postF_count_one {s : St} {r : Nat} (hinv : Inv s r) :
    ∀ (fuel n m : Nat), n < s.heap.length → s.heap.length ≤ fuel + n →
      ReachC s n m → List.count m (postF (chOf s) fuel n) = 1
  | 0, n, _, hn, hf, _ => absurd hn (by omega)
  | fuel + 1, n, m, hn, hf, hr => by
    rw [postF_succ, List.count_append]
    by_cases hmn : m = n
    · subst hmn
      have hj : m ∉ ((chOf s m).map fun p => postF (chOf s) fuel p.2).join := by
        intro hmem
        obtain ⟨l, hl, hml⟩ := List.mem_join.1 hmem
        obtain ⟨p, hp, hpe⟩ := List.mem_map.1 hl
        rw [← hpe] at hml
        have h1 := reach_le hinv (postF_mem_reach hinv fuel p.2 m hml)
        have h2 := (mem_children_lt hinv
          (show (p.1, p.2) ∈ (getNode s m).children from hp)).2.1
        omega
      rw [List.count_eq_zero.2 hj, List.count_singleton_self]
    · rcases reach_first_step hr with he | hex
      · exact absurd he hmn
      · obtain ⟨sl, c, hmc, hcm⟩ := hex
        have hb := mem_children_lt hinv hmc
        have hnd : (chOf s n).Nodup :=
          List.Nodup.of_map Prod.fst (hinv.2.2.2 n hn).1
        have huniq : ∀ p2, p2 ∈ chOf s n → ∀ q2, q2 ∈ chOf s n →
            (List.count m ∘ fun p => postF (chOf s) fuel p.2) p2 ≠ 0 →
            (List.count m ∘ fun p => postF (chOf s) fuel p.2) q2 ≠ 0 →
            p2 = q2 := by
          intro p2 hp2 q2 hq2 hgp hgq
          have hmp : m ∈ postF (chOf s) fuel p2.2 :=
            List.count_pos_iff.1 (Nat.pos_of_ne_zero hgp)
          have hmq : m ∈ postF (chOf s) fuel q2.2 :=
            List.count_pos_iff.1 (Nat.pos_of_ne_zero hgq)
          exact child_reach_unique hinv hp2 hq2
            (postF_mem_reach hinv fuel p2.2 m hmp)
            (postF_mem_reach hinv fuel q2.2 m hmq)
        have hex1 : ∃ p2, p2 ∈ chOf s n ∧
            (List.count m ∘ fun p => postF (chOf s) fuel p.2) p2 = 1 :=
          ⟨(sl, c), hmc,
            postF_count_one hinv fuel c m hb.2.2 (by omega) hcm⟩
        have hc2 : List.count m [n] = 0 := by
          rw [List.count_eq_zero]
          intro hmem
          exact hmn (List.mem_singleton.1 hmem)
        rw [hc2, count_join_eq_sum, List.map_map]
        rw [sum_count_one (chOf s n) hnd huniq hex1]

/-- The postorder listing of the whole tree contains the postorder listing
of each reachable subtree as a contiguous segment. -/
theorem postF_sub {s : St} {r : Nat} (hinv : Inv s r)
    (hr : r < s.heap.length) :
    ∀ {N : Nat}, ReachC s r N →
      ∃ A B, postF (chOf s) s.heap.length r =
        A ++ (postF (chOf s) s.heap.length N ++ B) := by
  intro N h
  induction h with
  | refl => exact ⟨[], [], by simp⟩
  | step h1 hm ih =>
    rename_i b c sl
    obtain ⟨A, B, hAB⟩ := ih
    have hb : b < s.heap.length := (mem_children_lt hinv hm).1
    have hc : c < s.heap.length := (mem_children_lt hinv hm).2.2
    have hbc : b < c := (mem_children_lt hinv hm).2.1
    have hlen1 : s.heap.length - 1 + 1 = s.heap.length := by omega
    have hsplit := postF_succ (chOf s) (s.heap.length - 1) b
    rw [hlen1] at hsplit
    obtain ⟨l1, l2, hch⟩ := List.append_of_mem hm
    have hch2 : chOf s b = l1 ++ (sl, c) :: l2 := hch
    have hj : ((chOf s b).map fun p =>
          postF (chOf s) (s.heap.length - 1) p.2).join =
        ((l1.map fun p => postF (chOf s) (s.heap.length - 1) p.2).join ++
          (postF (chOf s) (s.heap.length - 1) c ++
            (l2.map fun p =>
              postF (chOf s) (s.heap.length - 1) p.2).join)) := by
      rw [hch2]
      simp [List.join_append, List.append_assoc]
    have hstab : postF (chOf s) (s.heap.length - 1) c =
        postF (chOf s) s.heap.length c :=
      postF_stable hinv (s.heap.length - 1) s.heap.length c hc
        (by omega) (by omega)
    refine ⟨A ++ (l1.map fun p =>
        postF (chOf s) (s.heap.length - 1) p.2).join,
      ((l2.map fun p =>
        postF (chOf s) (s.heap.length - 1) p.2).join ++ ([b] ++ B)), ?_⟩
    rw [hAB, hsplit, hj, hstab]
    simp

theorem count_map_inj [BEq α] [LawfulBEq α] [BEq β] [LawfulBEq β]
    {f : α → β} (hf : ∀ a b, f a = f b → a = b) (x : α) :
    ∀ (l : List α), List.count (f x) (l.map f) = List.count x l
  | [] => rfl
  | a :: l => by
    simp only [List.map_cons, List.count_cons, count_map_inj hf x l]
    congr 1
    cases hxa : a == x with
    | false =>
      have hne : a ≠ x := ne_of_beq_false hxa
      have hfne : f a ≠ f x := fun hcon => hne (hf a x hcon)
      have hfb : (f a == f x) = false := by
        cases hfb2 : f a == f x with
        | false => rfl
        | true => exact absurd (eq_of_beq hfb2) hfne
      rw [hfb]
    | true =>
      have hx : a = x := eq_of_beq hxa
      subst hx
      simp

-- ### Claim C4: `init_node` fires bottom up, exactly once per node

/-- C4: after a successful first `root()` call, the `init_node` event for
every node `N` of the assembled tree appears exactly once in the event
log, and for every proper descendant `D` of `N` the `init_node` event for
`D` appears strictly before the one for `N` (bottom-up order). -/
theorem init_node_fires_bottom_up {E : Env} {src : FST} {r : Nat} {s' : St}
    (h : root E src St.empty = (.ok r, s')) :
    ∀ N, ReachC s' r N →
      List.count (Event.init_node N) s'.log = 1 ∧
      ∀ D, ReachC s' N D → D ≠ N →
        ∃ l1 l2, s'.log = l1 ++ Event.init_node N :: l2 ∧
          Event.init_node D ∈ l1 := by
  obtain ⟨hr0, hinvS⟩ := root_build_inv h
  subst hr0
  rw [root_empty_build E src] at h
  cases hp : parse_node_directoryF E (nodeLk E src 0) 0 src startSt with
  | mk res s2 =>
    rw [hp] at h
    cases res with
    | error e => simp at h
    | ok u =>
      simp only [Prod.mk.injEq] at h
      obtain ⟨h1, h2⟩ := h
      subst h2
      have hlog2 : s2.log = [] := by
        have hcl := parse_node_directoryF_cache_log E
          (cacheLk_nodeLk E src 0 0) src 0 startSt rfl
        rw [hp] at hcl
        exact hcl.2
      have he : EqStruct (fire (init E 0 s2) (Event.init_tree 0)) s2 :=
        eqStruct_trans eqStruct_fire (init_eqStruct E 0 s2)
      have hinv2 : Inv s2 0 := inv_of_eqStruct (eqStruct_symm he) hinvS
      have hpos : 0 < s2.heap.length := inv_root_lt hinv2
      have hlogS : (fire (init E 0 s2) (Event.init_tree 0)).log =
          (postF (chOf s2) s2.heap.length 0).map Event.init_node ++
            [Event.init_tree 0] := by
        rw [log_fire]
        simp only [init]
        rw [initAux_log E s2.heap.length 0 s2 (chOf s2) (fun i => rfl),
          hlog2]
        simp
      intro N hN
      have hN2 : ReachC s2 0 N := reach_of_eqStruct (eqStruct_symm he) hN
      have hNlt : N < s2.heap.length :=
        reach_lt_len hinv2 (inv_root_lt hinv2) hN2
      refine ⟨?_, ?_⟩
      · have h0 : List.count (Event.init_node N) [Event.init_tree 0] = 0 := by
          rw [List.count_eq_zero]
          intro hmem
          exact Event.noConfusion (List.mem_singleton.1 hmem)
        rw [hlogS, List.count_append,
          count_map_inj (fun a b hab => Event.init_node.inj hab) N
            (postF (chOf s2) s2.heap.length 0),
          postF_count_one hinv2 s2.heap.length 0 N hpos (by omega) hN2, h0]
      · intro D hND hDN
        have hND2 : ReachC s2 N D := reach_of_eqStruct (eqStruct_symm he) hND
        obtain ⟨A, B, hdec⟩ := postF_sub hinv2 hpos hN2
        have hlen1 : s2.heap.length - 1 + 1 = s2.heap.length := by omega
        have hsN := postF_succ (chOf s2) (s2.heap.length - 1) N
        rw [hlen1] at hsN
        have hDmem : D ∈ postF (chOf s2) s2.heap.length N :=
          reach_mem_postF hinv2 s2.heap.length N D hNlt (by omega) hND2
        rw [hsN] at hDmem
        have hDin : D ∈ ((chOf s2 N).map fun p =>
            postF (chOf s2) (s2.heap.length - 1) p.2).join := by
          rcases List.mem_append.1 hDmem with hx | hx
          · exact hx
          · exact absurd (List.mem_singleton.1 hx) hDN
        refine ⟨A.map Event.init_node ++
            (((chOf s2 N).map fun p =>
              postF (chOf s2) (s2.heap.length - 1) p.2).join.map
                Event.init_node),
          B.map Event.init_node ++ [Event.init_tree 0], ?_, ?_⟩
        · rw [hlogS, hdec, hsN]
          simp
        · exact List.mem_append.2 (Or.inr (List.mem_map.2 ⟨D, hDin, rfl⟩))

theorem init_node_fires_bottom_up_witness :
    root E0 srcW St.empty = (.ok 0, sW2) ∧
    (∀ N, ReachC sW2 0 N →
      List.count (Event.init_node N) sW2.log = 1 ∧
      ∀ D, ReachC sW2 N D → D ≠ N →
        ∃ l1 l2, sW2.log = l1 ++ Event.init_node N :: l2 ∧
          Event.init_node D ∈ l1) :=
  ⟨by decide, @init_node_fires_bottom_up E0 srcW 0 sW2 (by decide)⟩


-- ### Claim C2: coterminous merge of a directory and a matching file

/-- The subdirectory pass runs before the file pass, so swapping a file
entry past a directory entry in the listing changes nothing. -/
theorem parse_node_directoryF_two_order (E : Env) (lk : LookupFn) (d : Nat)
    (pstem xstem : String) (xok : Bool) (xentries : List FST)
    (fstem fsuffix ftext : String) (fmeta : List (String × Val)) (s : St) :
    parse_node_directoryF E lk d
      (.dir pstem true [.file fstem fsuffix ftext fmeta,
        .dir xstem xok xentries]) s =
    parse_node_directoryF E lk d
      (.dir pstem true [.dir xstem xok xentries,
        .file fstem fsuffix ftext fmeta]) s := by
  have hfiles : ∀ t : St, parseFiles E lk d
      [.file fstem fsuffix ftext fmeta, .dir xstem xok xentries] t =
      parseFiles E lk d
      [.dir xstem xok xentries, .file fstem fsuffix ftext fmeta] t := by
    intro t
    by_cases h1 : startsWithDot fstem
    · simp only [parseFiles, h1, if_true]
    · by_cases h2 : stripDots fsuffix ∈ E.callbacks
      · simp only [parseFiles, h1, Bool.false_eq_true, if_false, h2, if_true]
      · simp only [parseFiles, h1, h2, Bool.false_eq_true, if_false]
  have hdirs : parseDirs E lk d
      [.file fstem fsuffix ftext fmeta, .dir xstem xok xentries] s =
      parseDirs E lk d
      [.dir xstem xok xentries, .file fstem fsuffix ftext fmeta] s := by
    simp only [parseDirs]
  simp only [parse_node_directoryF]
  rw [hdirs]
  cases hds : parseDirs E lk d
      [.dir xstem xok xentries, .file fstem fsuffix ftext fmeta] s with
  | mk res s1 =>
    cases res with
    | error e => rfl
    | ok v => exact hfiles s1

/-- C2: coterminous merge.  When a parent directory holds a subdirectory
and a file whose stems slugify to the same (non-`index`) slug, with the
file renderable (not a dotfile, registered extension), then after the
parent is parsed exactly one child sits under that slug: the node the
directory pass created.  The file pass finds it and stores the file's
text, metadata and extension on it, leaving the children the directory
pass gave it untouched — and the file entry may come before or after the
directory entry in the listing with identical results, because all
subdirectories are scanned before any file. -/
theorem coterminous_merge (E : Env) {lk : LookupFn} {r : Nat}
    (hlk : CacheLk lk r) {s : St} {d : Nat}
    (pstem xstem fstem fsuffix ftext : String) (fmeta : List (String × Val))
    (xentries : List FST)
    (hinv : Inv s r) (hreach : ReachC s r d)
    (hslug : E.slugify fstem = E.slugify xstem)
    (hidx : E.slugify xstem ≠ "index")
    (hdot : startsWithDot fstem = false)
    (hcb : stripDots fsuffix ∈ E.callbacks)
    {u : Unit} {s' : St}
    (hrun : parse_node_directoryF E lk d
      (.dir pstem true [.dir xstem true xentries,
        .file fstem fsuffix ftext fmeta]) s = (.ok u, s')) :
    parse_node_directoryF E lk d
      (.dir pstem true [.file fstem fsuffix ftext fmeta,
        .dir xstem true xentries]) s = (.ok u, s') ∧
    ∃ c s1,
      parseDirs E lk d [.dir xstem true xentries,
        .file fstem fsuffix ftext fmeta] s = (.ok (), s1) ∧
      dictLookup (E.slugify xstem) (getNode s' d).children = some c ∧
      (∀ c2, (E.slugify xstem, c2) ∈ (getNode s' d).children → c2 = c) ∧
      (getNode s' c).children = (getNode s1 c).children ∧
      (getNode s' c).data =
        dictUpdate (dictInsert "text" ftext (getNode s1 c).data) fmeta ∧
      (getNode s' c).ext = stripDots fsuffix ∧
      (getNode s' c).parent = some d ∧
      (getNode s' c).slug = E.slugify xstem := by
  have hrun0 := hrun
  have hd : d < s.heap.length := reach_lt_len hinv (inv_root_lt hinv) hreach
  have hdc : d ≠ s.heap.length := Nat.ne_of_lt hd
  obtain ⟨hpres1, hfst, hreachc, hcnode, hdch, hlen2⟩ :=
    linkChild_pres E xstem hinv hreach (Nat.zero_le _)
      (fun p hp => Nat.zero_le _)
  have hchc : ∀ p ∈ (getNode (linkChild E d xstem s).2 s.heap.length).children,
      (linkChild E d xstem s).2.heap.length ≤ p.2 := by
    intro p hp
    rw [hcnode] at hp
    simp [Node.new] at hp
  have hsub0 := parse_node_directoryF_pres E hlk (.dir xstem true xentries)
    s.heap.length (linkChild E d xstem s).2.heap.length
    (linkChild E d xstem s).2 hpres1.1 hreachc (Nat.le_refl _) hchc
  cases hsubeq : parse_node_directoryF E lk s.heap.length
      (.dir xstem true xentries) (linkChild E d xstem s).2 with
  | mk res3 s3 =>
    rw [hsubeq] at hsub0
    cases res3 with
    | error e =>
      have hdirs : parseDirs E lk d [.dir xstem true xentries,
          .file fstem fsuffix ftext fmeta] s = (.error e, s3) := by
        simp only [parseDirs]
        rw [hfst, hsubeq]
      simp only [parse_node_directoryF] at hrun
      rw [hdirs] at hrun
      simp at hrun
    | ok v =>
      have hdirs : parseDirs E lk d [.dir xstem true xentries,
          .file fstem fsuffix ftext fmeta] s = (.ok (), s3) := by
        simp only [parseDirs]
        rw [hfst, hsubeq]
      simp only [parse_node_directoryF] at hrun
      rw [hdirs] at hrun
      simp only [] at hrun
      have hP : Pres r d 0 (linkChild E d xstem s).2 s3 :=
        pres_descend hpres1.1 hpres1.2.1 (fun p hp => Nat.zero_le _) hsub0 hd
          (Nat.zero_le _) (by omega)
      have hd3 : getNode s3 d = getNode (linkChild E d xstem s).2 d :=
        hsub0.2.2.2.1 d (by omega) hdc
      have hlkup3 : dictLookup (E.slugify fstem)
          (getNode s3 d).children = some s.heap.length := by
        rw [hslug, hd3, hdch]
        exact dictLookup_dictInsert_self _ _ _
      have hne3 : E.slugify fstem ≠ "index" := by
        rw [hslug]
        exact hidx
      obtain ⟨sx, hstep, hlenE, hcacheE, hlogE, hoth, hm⟩ :=
        parse_node_fileF_existing E hlk fsuffix ftext fmeta hP.1 hP.2.1
          hne3 hlkup3
      have hpf : parseFiles E lk d [.dir xstem true xentries,
          .file fstem fsuffix ftext fmeta] s3 = (.ok (), sx) := by
        simp only [parseFiles, hdot, Bool.false_eq_true, if_false, hcb,
          if_true, hstep]
      rw [hpf] at hrun
      injection hrun with hru hrs
      subst hrs
      have hsome : dictLookup (E.slugify xstem) (getNode sx d).children =
          some s.heap.length := by
        rw [hoth d hdc, hd3, hdch]
        exact dictLookup_dictInsert_self _ _ _
      have hnd2 : ((getNode sx d).children.map Prod.fst).Nodup := by
        rw [hoth d hdc, hd3, hdch]
        exact keys_nodup_dictInsert _ _ (hinv.2.2.2 d hd).1
      refine ⟨?_, s.heap.length, s3, hdirs, hsome, ?_, ?_, ?_, ?_, ?_, ?_⟩
      · rw [parse_node_directoryF_two_order]
        exact hrun0
      · intro c2 hmem
        exact Option.some.inj
          ((dictLookup_eq_some_of_mem_nodup hnd2 hmem).symm.trans hsome)
      · rw [hm]
      · rw [hm]
      · rw [hm]
      · rw [hm]
      · rw [hm]
        exact hslug

/-- A coterminous layout for the C2 witness: `src/` holds `x/` (with one
renderable file inside) and `x.md`. -/
def xentC : List FST := [.file "a" ".md" "t" []]

def fstC : FST :=
  .dir "src" true [.dir "x" true xentC, .file "x" ".md" "hello" [("k", "v")]]

def lkC : LookupFn := nodeLk E0 fstC 0

def sC : St := (parse_node_directoryF E0 lkC 0 fstC startSt).2

theorem coterminous_merge_witness :
    E0.slugify "x" = E0.slugify "x" ∧
    E0.slugify "x" ≠ "index" ∧
    startsWithDot "x" = false ∧
    stripDots ".md" ∈ E0.callbacks ∧
    parse_node_directoryF E0 lkC 0 fstC startSt = (.ok (), sC) ∧
    (parse_node_directoryF E0 lkC 0
        (.dir "src" true [.file "x" ".md" "hello" [("k", "v")],
          .dir "x" true xentC]) startSt = (.ok (), sC) ∧
      ∃ c s1,
        parseDirs E0 lkC 0 [.dir "x" true xentC,
          .file "x" ".md" "hello" [("k", "v")]] startSt = (.ok (), s1) ∧
        dictLookup (E0.slugify "x") (getNode sC 0).children = some c ∧
        (∀ c2, (E0.slugify "x", c2) ∈ (getNode sC 0).children → c2 = c) ∧
        (getNode sC c).children = (getNode s1 c).children ∧
        (getNode sC c).data =
          dictUpdate (dictInsert "text" "hello" (getNode s1 c).data)
            [("k", "v")] ∧
        (getNode sC c).ext = stripDots ".md" ∧
        (getNode sC c).parent = some 0 ∧
        (getNode sC c).slug = E0.slugify "x") :=
  ⟨rfl, by decide, by decide, by decide, by decide,
    coterminous_merge E0 (cacheLk_nodeLk E0 fstC 0 0) "src" "x" "x" ".md"
      "hello" [("k", "v")] xentC inv_startSt (.refl 0) rfl (by decide)
      (by decide) (by decide) (by decide)⟩

end Ivy
